import Mathlib

/-!
Verification development for the A5 activation tool (`src/main.py`).

The file shallowly embeds the parts of the program that the specification
talks about:

* the payload patcher `patch_payload_for_local_server` (URL rewriting over a
  sqlite table/column/row structure, including the `bytes` branch that decodes
  with `errors='ignore'` and re-encodes as UTF-8);
* the HTTP request handler `PlistRequestHandler.do_GET` (User-Agent token
  extraction by `re.search`, the `..` gate, path construction and the response
  headers);
* the orchestration worker `ActivationThread.run` (server start, payload
  patching, activation-state check, the 5-attempt retry loop with its
  status/success/error emissions, sleeps and the final cleanup), modelled as a
  pure function from the run inputs to the list of observable events.

Machine strings are `List Char`; byte strings are `List Nat` (each < 256).
-/

namespace A5

/-- Boolean prefix test on lists (used for the scheme and token patterns). -/
def leadsWith [DecidableEq α] : List α → List α → Bool
  | [], _ => true
  | _ :: _, [] => false
  | a :: as, b :: bs => if a = b then leadsWith as bs else false

/-- Boolean contiguous-sublist test: Python's `needle in hay`. -/
def occursIn [DecidableEq α] (n : List α) : List α → Bool
  | [] => n.isEmpty
  | b :: bs => leadsWith n (b :: bs) || occursIn n bs

theorem leadsWith_refl_append [DecidableEq α] (n t : List α) :
    leadsWith n (n ++ t) = true := by
  induction n with
  | nil => rfl
  | cons a as ih => simp [leadsWith, ih]

theorem leadsWith_ex [DecidableEq α] {n l : List α} (h : leadsWith n l = true) :
    ∃ t, l = n ++ t := by
  induction n generalizing l with
  | nil => exact ⟨l, rfl⟩
  | cons a as ih =>
    cases l with
    | nil => simp [leadsWith] at h
    | cons b bs =>
      simp only [leadsWith] at h
      split at h
      · obtain ⟨t, ht⟩ := ih h
        exact ⟨t, by simp_all⟩
      · exact absurd h (by simp)

theorem leadsWith_length [DecidableEq α] {n l : List α} (h : leadsWith n l = true) :
    n.length ≤ l.length := by
  obtain ⟨t, rfl⟩ := leadsWith_ex h
  simp

theorem leadsWith_head [DecidableEq α] {a : α} {as l : List α}
    (h : leadsWith (a :: as) l = true) : ∃ t, l = a :: t := by
  obtain ⟨t, rfl⟩ := leadsWith_ex h
  exact ⟨as ++ t, rfl⟩

theorem occursIn_iff [DecidableEq α] {n l : List α} :
    occursIn n l = true ↔ ∃ p s, l = p ++ n ++ s := by
  induction l with
  | nil =>
    constructor
    · intro h
      cases n with
      | nil => exact ⟨[], [], rfl⟩
      | cons a as => simp [occursIn, List.isEmpty] at h
    · rintro ⟨p, s, hl⟩
      have hp : p = [] := by cases p <;> simp_all
      subst hp
      have hn : n = [] := by cases n <;> simp_all
      subst hn
      rfl
  | cons b bs ih =>
    simp only [occursIn, Bool.or_eq_true, ih]
    constructor
    · rintro (h | ⟨p, s, hp⟩)
      · obtain ⟨t, ht⟩ := leadsWith_ex h
        exact ⟨[], t, by simpa using ht⟩
      · exact ⟨b :: p, s, by simp [hp]⟩
    · rintro ⟨p, s, hp⟩
      cases p with
      | nil =>
        left
        simp only [List.nil_append] at hp
        rw [hp]
        exact leadsWith_refl_append n s
      | cons q qs =>
        right
        refine ⟨qs, s, ?_⟩
        have := hp
        simp only [List.cons_append] at this
        exact (List.cons_eq_cons.1 this).2

theorem occursIn_of_leadsWith [DecidableEq α] {n l : List α}
    (h : leadsWith n l = true) : occursIn n l = true := by
  obtain ⟨t, rfl⟩ := leadsWith_ex h
  exact occursIn_iff.2 ⟨[], t, by simp⟩

theorem occursIn_append_left [DecidableEq α] {n m : List α} (a : List α)
    (h : occursIn n m = true) : occursIn n (a ++ m) = true := by
  obtain ⟨p, s, rfl⟩ := occursIn_iff.1 h
  exact occursIn_iff.2 ⟨a ++ p, s, by simp⟩

theorem occursIn_append_right [DecidableEq α] {n m : List α} (b : List α)
    (h : occursIn n m = true) : occursIn n (m ++ b) = true := by
  obtain ⟨p, s, rfl⟩ := occursIn_iff.1 h
  exact occursIn_iff.2 ⟨p, s ++ b, by simp⟩

theorem occursIn_cons_of [DecidableEq α] {n l : List α} (x : α)
    (h : occursIn n l = true) : occursIn n (x :: l) = true := by
  simp [occursIn, h]

theorem occursIn_embed [DecidableEq α] {n m : List α} (a b : List α)
    (h : occursIn n m = true) : occursIn n (a ++ (m ++ b)) = true :=
  occursIn_append_left a (occursIn_append_right b h)

theorem occursIn_cons_tail [DecidableEq α] {n : List α} {b : α} {bs : List α}
    (h : occursIn n (b :: bs) = false) : occursIn n bs = false := by
  simp only [occursIn, Bool.or_eq_false_iff] at h
  exact h.2

theorem not_leadsWith_of_not_occursIn [DecidableEq α] {n l : List α}
    (hne : n ≠ []) (h : occursIn n l = false) : leadsWith n l = false := by
  cases l with
  | nil =>
    cases n with
    | nil => exact absurd rfl hne
    | cons a as => rfl
  | cons b bs =>
    simp only [occursIn, Bool.or_eq_false_iff] at h
    exact h.1

theorem mem_of_occursIn_head [DecidableEq α] {a : α} {as l : List α}
    (h : occursIn (a :: as) l = true) : a ∈ l := by
  induction l with
  | nil => simp [occursIn, List.isEmpty] at h
  | cons b bs ih =>
    simp only [occursIn, Bool.or_eq_true] at h
    rcases h with h | h
    · obtain ⟨t, ht⟩ := leadsWith_head h
      simp [ht]
    · exact List.mem_cons_of_mem _ (ih h)

/-! ### The URL pattern of `patch_payload_for_local_server`

`main.py` line 170 rewrites with `re.sub(r'https?://[^/\s]+', local_url, value_str)`.
`\s` on a Python 3 `str` matches the Unicode whitespace class; the character
list below is CPython's. -/

/-- Python regex `\s` on `str`: Unicode whitespace. -/
def isPySpace (c : Char) : Bool :=
  c.toNat = 32 || c.toNat = 9 || c.toNat = 10 || c.toNat = 11 || c.toNat = 12 ||
  c.toNat = 13 || c.toNat = 28 || c.toNat = 29 || c.toNat = 30 || c.toNat = 31 ||
  c.toNat = 133 || c.toNat = 160 || c.toNat = 5760 ||
  (8192 ≤ c.toNat && c.toNat ≤ 8202) || c.toNat = 8232 || c.toNat = 8233 ||
  c.toNat = 8239 || c.toNat = 8287 || c.toNat = 12288

/-- Character class `[^/\s]` of the URL pattern (the authority run). -/
def isAuthChar (c : Char) : Bool := !(c = '/' || isPySpace c)

/-- The literal scheme `http://`. -/
def httpS : List Char := ['h', 't', 't', 'p', ':', '/', '/']

/-- The literal scheme `https://`. -/
def httpsS : List Char := ['h', 't', 't', 'p', 's', ':', '/', '/']

/-- One attempted match of `https?://[^/\s]+` anchored at the head of `cs`:
`some rest` when the regex matches a prefix of `cs` leaving `rest`
(the regex first tries the greedy `https` branch, which can never overlap
with a successful `http://` prefix since the two differ at index 4). -/
def matchUrlAt (cs : List Char) : Option (List Char) :=
  if leadsWith httpsS cs then
    if ((cs.drop 8).takeWhile isAuthChar).isEmpty then none
    else some ((cs.drop 8).dropWhile isAuthChar)
  else if leadsWith httpS cs then
    if ((cs.drop 7).takeWhile isAuthChar).isEmpty then none
    else some ((cs.drop 7).dropWhile isAuthChar)
  else none

theorem dropWhile_length_le (p : α → Bool) :
    ∀ l : List α, (l.dropWhile p).length ≤ l.length := by
  intro l
  induction l with
  | nil => simp
  | cons a as ih =>
    by_cases hp : p a = true
    · rw [List.dropWhile_cons_of_pos hp]
      simpa using Nat.le_succ_of_le ih
    · rw [List.dropWhile_cons_of_neg hp]

theorem matchUrlAt_length {cs rest : List Char} (h : matchUrlAt cs = some rest) :
    rest.length < cs.length := by
  unfold matchUrlAt at h
  by_cases h8 : leadsWith httpsS cs = true
  · rw [if_pos h8] at h
    by_cases he : ((cs.drop 8).takeWhile isAuthChar).isEmpty = true
    · rw [if_pos he] at h; exact absurd h (by simp)
    · rw [if_neg he] at h
      have hrest : rest = (cs.drop 8).dropWhile isAuthChar := by simpa using h.symm
      have h1 : rest.length ≤ (cs.drop 8).length := hrest ▸ dropWhile_length_le _ _
      have h2 : 8 ≤ cs.length := leadsWith_length h8
      simp only [List.length_drop] at h1
      omega
  · rw [if_neg h8] at h
    by_cases h7 : leadsWith httpS cs = true
    · rw [if_pos h7] at h
      by_cases he : ((cs.drop 7).takeWhile isAuthChar).isEmpty = true
      · rw [if_pos he] at h; exact absurd h (by simp)
      · rw [if_neg he] at h
        have hrest : rest = (cs.drop 7).dropWhile isAuthChar := by simpa using h.symm
        have h1 : rest.length ≤ (cs.drop 7).length := hrest ▸ dropWhile_length_le _ _
        have h2 : 7 ≤ cs.length := leadsWith_length h7
        simp only [List.length_drop] at h1
        omega
    · rw [if_neg h7] at h; exact absurd h (by simp)

/-- Fuel-indexed left-to-right, non-overlapping substitution of every match of
`https?://[^/\s]+` by `u` (the behaviour of `re.sub` at line 170, for a
replacement string `u` without backslashes). The fuel dominates the input
length, so the `fuel = 0` case is unreachable in `urlSub`. -/
def urlSubF (u : List Char) : Nat → List Char → List Char
  | _, [] => []
  | 0, l => l
  | fuel + 1, c :: cs =>
    match matchUrlAt (c :: cs) with
    | some rest => u ++ urlSubF u fuel rest
    | none => c :: urlSubF u fuel cs

/-- `re.sub(r'https?://[^/\s]+', u, l)`. -/
def urlSub (u l : List Char) : List Char := urlSubF u l.length l

theorem urlSubF_fuel {u : List Char} :
    ∀ f1 f2 l, l.length ≤ f1 → l.length ≤ f2 → urlSubF u f1 l = urlSubF u f2 l := by
  intro f1
  induction f1 with
  | zero =>
    intro f2 l h1 _
    have : l = [] := List.length_eq_zero.1 (Nat.le_zero.1 h1)
    subst this
    cases f2 <;> rfl
  | succ g1 ih =>
    intro f2 l h1 h2
    cases l with
    | nil => cases f2 <;> rfl
    | cons c cs =>
      cases f2 with
      | zero => simp at h2
      | succ g2 =>
        simp only [urlSubF]
        cases hm : matchUrlAt (c :: cs) with
        | some rest =>
          have hr : rest.length < (c :: cs).length := matchUrlAt_length hm
          simp only [List.length_cons] at h1 h2 hr
          dsimp only
          rw [ih g2 rest (by omega) (by omega)]
        | none =>
          simp only [List.length_cons] at h1 h2
          dsimp only
          rw [ih g2 cs (by omega) (by omega)]

theorem urlSub_nil (u : List Char) : urlSub u [] = [] := rfl

theorem urlSub_cons_some {c : Char} {cs rest : List Char} (u : List Char)
    (h : matchUrlAt (c :: cs) = some rest) :
    urlSub u (c :: cs) = u ++ urlSub u rest := by
  have hr : rest.length < (c :: cs).length := matchUrlAt_length h
  unfold urlSub
  simp only [List.length_cons, urlSubF, h]
  rw [urlSubF_fuel cs.length rest.length rest (by simp at hr; omega) (Nat.le_refl _)]

theorem urlSub_cons_none {c : Char} {cs : List Char} (u : List Char)
    (h : matchUrlAt (c :: cs) = none) :
    urlSub u (c :: cs) = c :: urlSub u cs := by
  unfold urlSub
  simp only [List.length_cons, urlSubF, h]

/-- Strong induction on list length, used to reason about `urlSub`. -/
theorem listLenInd {α : Type} {P : List α → Prop}
    (step : ∀ l, (∀ m, List.length m < List.length l → P m) → P l) : ∀ l, P l := by
  have H : ∀ n (l : List α), l.length ≤ n → P l := by
    intro n
    induction n with
    | zero =>
      intro l hl
      exact step l (fun m hm => absurd (Nat.lt_of_lt_of_le hm hl) (Nat.not_lt_zero _))
    | succ n ih =>
      intro l hl
      exact step l (fun m hm => ih m (by omega))
  exact fun l => H l.length l (Nat.le_refl _)

/-! ### UTF-8

The patcher's bytes branch (`main.py` lines 162-177) decodes a BLOB value with
`value.decode('utf-8', errors='ignore')` and re-encodes the substituted string
with `.encode('utf-8')`.  Bytes are `Nat`s below 256; invalid sequences are
skipped (CPython's `ignore` handler), which no theorem depends on — all proofs
only traverse valid sequences produced by `encodeChar`. -/

/-- UTF-8 encoding of one scalar value. -/
def encodeChar (c : Char) : List Nat :=
  if c.toNat < 128 then [c.toNat]
  else if c.toNat < 2048 then [192 + c.toNat / 64, 128 + c.toNat % 64]
  else if c.toNat < 65536 then
    [224 + c.toNat / 4096, 128 + c.toNat / 64 % 64, 128 + c.toNat % 64]
  else
    [240 + c.toNat / 262144, 128 + c.toNat / 4096 % 64, 128 + c.toNat / 64 % 64,
      128 + c.toNat % 64]

/-- `str.encode('utf-8')`. -/
def encodeStr : List Char → List Nat
  | [] => []
  | c :: s => encodeChar c ++ encodeStr s

/-- Lower bound of the second byte of a three-byte sequence (no overlong
encodings; no surrogates). -/
def lo3 (b : Nat) : Nat := if b = 224 then 160 else 128

/-- Upper bound of the second byte of a three-byte sequence. -/
def hi3 (b : Nat) : Nat := if b = 237 then 160 else 192

/-- Lower bound of the second byte of a four-byte sequence. -/
def lo4 (b : Nat) : Nat := if b = 240 then 144 else 128

/-- Upper bound of the second byte of a four-byte sequence (≤ U+10FFFF). -/
def hi4 (b : Nat) : Nat := if b = 244 then 144 else 192

/-- Fuel-indexed body of `decodeBytes`; each step consumes at least one byte,
so any fuel at least the length of the input gives the same answer. -/
def decodeBytesF : Nat → List Nat → List Char
  | _, [] => []
  | 0, _ :: _ => []
  | fuel + 1, b :: bs =>
    if b < 128 then Char.ofNat b :: decodeBytesF fuel bs
    else if b < 194 then decodeBytesF fuel bs
    else if b < 224 then
      match bs with
      | [] => []
      | b2 :: bs2 =>
        if 128 ≤ b2 ∧ b2 < 192 then
          Char.ofNat ((b - 192) * 64 + (b2 - 128)) :: decodeBytesF fuel bs2
        else decodeBytesF fuel bs
    else if b < 240 then
      match bs with
      | [] => []
      | b2 :: bs2 =>
        if lo3 b ≤ b2 ∧ b2 < hi3 b then
          match bs2 with
          | [] => []
          | b3 :: bs3 =>
            if 128 ≤ b3 ∧ b3 < 192 then
              Char.ofNat ((b - 224) * 4096 + (b2 - 128) * 64 + (b3 - 128)) ::
                decodeBytesF fuel bs3
            else decodeBytesF fuel bs2
        else decodeBytesF fuel bs
    else if b < 245 then
      match bs with
      | [] => []
      | b2 :: bs2 =>
        if lo4 b ≤ b2 ∧ b2 < hi4 b then
          match bs2 with
          | [] => []
          | b3 :: bs3 =>
            if 128 ≤ b3 ∧ b3 < 192 then
              match bs3 with
              | [] => []
              | b4 :: bs4 =>
                if 128 ≤ b4 ∧ b4 < 192 then
                  Char.ofNat
                      ((b - 240) * 262144 + (b2 - 128) * 4096 + (b3 - 128) * 64 +
                        (b4 - 128)) :: decodeBytesF fuel bs4
                else decodeBytesF fuel bs3
            else decodeBytesF fuel bs2
        else decodeBytesF fuel bs
    else decodeBytesF fuel bs

/-- `bytes.decode('utf-8', errors='ignore')`: decode valid sequences, skip
bytes that cannot start or continue one. -/
def decodeBytes (l : List Nat) : List Char := decodeBytesF l.length l

theorem decodeBytesF_fuel :
    ∀ f1 f2 l, l.length ≤ f1 → l.length ≤ f2 → decodeBytesF f1 l = decodeBytesF f2 l := by
  intro f1
  induction f1 with
  | zero =>
    intro f2 l h1 _
    have : l = [] := List.length_eq_zero.1 (Nat.le_zero.1 h1)
    subst this
    cases f2 <;> rfl
  | succ g1 ih =>
    intro f2 l h1 h2
    cases l with
    | nil => cases f2 <;> rfl
    | cons b bs =>
      cases f2 with
      | zero => simp at h2
      | succ g2 =>
        simp only [List.length_cons, Nat.succ_le_succ_iff] at h1 h2
        simp only [decodeBytesF]
        have hbs : decodeBytesF g1 bs = decodeBytesF g2 bs := ih g2 bs h1 h2
        cases bs with
        | nil => simp [hbs]
        | cons b2 bs2 =>
          simp only [List.length_cons] at h1 h2
          have hbs2 : decodeBytesF g1 bs2 = decodeBytesF g2 bs2 :=
            ih g2 bs2 (by omega) (by omega)
          cases bs2 with
          | nil => simp [hbs, hbs2]
          | cons b3 bs3 =>
            simp only [List.length_cons] at h1 h2
            have hbs3 : decodeBytesF g1 bs3 = decodeBytesF g2 bs3 :=
              ih g2 bs3 (by omega) (by omega)
            cases bs3 with
            | nil => simp [hbs, hbs2, hbs3]
            | cons b4 bs4 =>
              simp only [List.length_cons] at h1 h2
              have hbs4 : decodeBytesF g1 bs4 = decodeBytesF g2 bs4 :=
                ih g2 bs4 (by omega) (by omega)
              simp [hbs, hbs2, hbs3, hbs4]

theorem decodeBytes_nil : decodeBytes [] = [] := rfl

theorem decodeBytes_step (b : Nat) (bs : List Nat) :
    decodeBytes (b :: bs) = decodeBytesF (bs.length + 1) (b :: bs) := rfl

theorem decodeBytes_ascii {b : Nat} (bs : List Nat) (h : b < 128) :
    decodeBytes (b :: bs) = Char.ofNat b :: decodeBytes bs := by
  rw [decodeBytes_step]
  simp only [decodeBytesF, if_pos h]
  rfl

theorem decodeBytes_two {b b2 : Nat} (bs2 : List Nat)
    (hb : 194 ≤ b ∧ b < 224) (hb2 : 128 ≤ b2 ∧ b2 < 192) :
    decodeBytes (b :: b2 :: bs2) =
      Char.ofNat ((b - 192) * 64 + (b2 - 128)) :: decodeBytes bs2 := by
  rw [decodeBytes_step]
  simp only [decodeBytesF, if_neg (by omega : ¬b < 128), if_neg (by omega : ¬b < 194),
    if_pos hb.2, if_pos hb2]
  rw [decodeBytesF_fuel ((b2 :: bs2).length) bs2.length bs2 (by simp) (Nat.le_refl _)]
  rfl

theorem decodeBytes_three {b b2 b3 : Nat} (bs3 : List Nat)
    (hb : 224 ≤ b ∧ b < 240) (hb2 : lo3 b ≤ b2 ∧ b2 < hi3 b) (hb3 : 128 ≤ b3 ∧ b3 < 192) :
    decodeBytes (b :: b2 :: b3 :: bs3) =
      Char.ofNat ((b - 224) * 4096 + (b2 - 128) * 64 + (b3 - 128)) :: decodeBytes bs3 := by
  rw [decodeBytes_step]
  simp only [decodeBytesF, if_neg (by omega : ¬b < 128), if_neg (by omega : ¬b < 194),
    if_neg (by omega : ¬b < 224), if_pos hb.2, if_pos hb2, if_pos hb3]
  rw [decodeBytesF_fuel ((b2 :: b3 :: bs3).length) bs3.length bs3 (by simp; omega)
    (Nat.le_refl _)]
  rfl

theorem decodeBytes_four {b b2 b3 b4 : Nat} (bs4 : List Nat)
    (hb : 240 ≤ b ∧ b < 245) (hb2 : lo4 b ≤ b2 ∧ b2 < hi4 b)
    (hb3 : 128 ≤ b3 ∧ b3 < 192) (hb4 : 128 ≤ b4 ∧ b4 < 192) :
    decodeBytes (b :: b2 :: b3 :: b4 :: bs4) =
      Char.ofNat ((b - 240) * 262144 + (b2 - 128) * 4096 + (b3 - 128) * 64 + (b4 - 128)) ::
        decodeBytes bs4 := by
  rw [decodeBytes_step]
  simp only [decodeBytesF, if_neg (by omega : ¬b < 128), if_neg (by omega : ¬b < 194),
    if_neg (by omega : ¬b < 224), if_neg (by omega : ¬b < 240), if_pos hb.2, if_pos hb2,
    if_pos hb3, if_pos hb4]
  rw [decodeBytesF_fuel ((b2 :: b3 :: b4 :: bs4).length) bs4.length bs4 (by simp; omega)
    (Nat.le_refl _)]
  rfl

theorem char_valid_nat (c : Char) :
    c.toNat < 55296 ∨ (57343 < c.toNat ∧ c.toNat < 1114112) := by
  have h := c.valid
  simp only [UInt32.isValidChar, Nat.isValidChar, Char.toNat] at h ⊢
  exact h

theorem encodeChar_ne_nil (c : Char) : encodeChar c ≠ [] := by
  unfold encodeChar
  split
  · simp
  · split
    · simp
    · split <;> simp

theorem decode_encodeChar (c : Char) (r : List Nat) :
    decodeBytes (encodeChar c ++ r) = c :: decodeBytes r := by
  have hv := char_valid_nat c
  have e1 := Nat.div_add_mod c.toNat 64
  have e2 := Nat.div_add_mod (c.toNat / 64) 64
  have e3 : c.toNat / 64 / 64 = c.toNat / 4096 := by
    rw [Nat.div_div_eq_div_mul]
  have e4 := Nat.div_add_mod (c.toNat / 4096) 64
  have e5 : c.toNat / 4096 / 64 = c.toNat / 262144 := by
    rw [Nat.div_div_eq_div_mul]
  rw [e3] at e2
  rw [e5] at e4
  by_cases h1 : c.toNat < 128
  · rw [show encodeChar c = [c.toNat] from by simp [encodeChar, h1]]
    rw [List.cons_append, List.nil_append, decodeBytes_ascii r h1, Char.ofNat_toNat]
  · by_cases h2 : c.toNat < 2048
    · rw [show encodeChar c = [192 + c.toNat / 64, 128 + c.toNat % 64] from by
        simp [encodeChar, h1, h2]]
      have d1 : c.toNat / 64 < 32 := by omega
      have d2 : 2 ≤ c.toNat / 64 := by omega
      simp only [List.cons_append, List.nil_append]
      rw [decodeBytes_two r (by constructor <;> omega) (by constructor <;> omega)]
      rw [show (192 + c.toNat / 64 - 192) * 64 + (128 + c.toNat % 64 - 128) = c.toNat by
        omega, Char.ofNat_toNat]
    · by_cases h3 : c.toNat < 65536
      · rw [show encodeChar c =
            [224 + c.toNat / 4096, 128 + c.toNat / 64 % 64, 128 + c.toNat % 64] from by
          simp [encodeChar, h1, h2, h3]]
        have d1 : c.toNat / 4096 < 16 := by omega
        have hb2 : lo3 (224 + c.toNat / 4096) ≤ 128 + c.toNat / 64 % 64 ∧
            128 + c.toNat / 64 % 64 < hi3 (224 + c.toNat / 4096) := by
          unfold lo3 hi3
          by_cases he : c.toNat / 4096 = 0
          · rw [if_pos (by omega), if_neg (by omega)]
            omega
          · rw [if_neg (by omega)]
            by_cases hs : c.toNat / 4096 = 13
            · rw [if_pos (by omega)]
              omega
            · rw [if_neg (by omega)]
              omega
        simp only [List.cons_append, List.nil_append]
        rw [decodeBytes_three r (by constructor <;> omega) hb2 (by constructor <;> omega)]
        rw [show (224 + c.toNat / 4096 - 224) * 4096 + (128 + c.toNat / 64 % 64 - 128) * 64 +
              (128 + c.toNat % 64 - 128) = c.toNat by omega, Char.ofNat_toNat]
      · rw [show encodeChar c =
            [240 + c.toNat / 262144, 128 + c.toNat / 4096 % 64, 128 + c.toNat / 64 % 64,
              128 + c.toNat % 64] from by simp [encodeChar, h1, h2, h3]]
        have d1 : c.toNat / 262144 < 5 := by omega
        have hb2 : lo4 (240 + c.toNat / 262144) ≤ 128 + c.toNat / 4096 % 64 ∧
            128 + c.toNat / 4096 % 64 < hi4 (240 + c.toNat / 262144) := by
          unfold lo4 hi4
          by_cases he : c.toNat / 262144 = 0
          · rw [if_pos (by omega), if_neg (by omega)]
            omega
          · rw [if_neg (by omega)]
            by_cases hs : c.toNat / 262144 = 4
            · rw [if_pos (by omega)]
              omega
            · rw [if_neg (by omega)]
              omega
        simp only [List.cons_append, List.nil_append]
        rw [decodeBytes_four r (by constructor <;> omega) hb2 (by constructor <;> omega)
          (by constructor <;> omega)]
        rw [show (240 + c.toNat / 262144 - 240) * 262144 +
              (128 + c.toNat / 4096 % 64 - 128) * 4096 + (128 + c.toNat / 64 % 64 - 128) * 64 +
              (128 + c.toNat % 64 - 128) = c.toNat by omega, Char.ofNat_toNat]

theorem decode_encodeStr_append (s : List Char) (r : List Nat) :
    decodeBytes (encodeStr s ++ r) = s ++ decodeBytes r := by
  induction s with
  | nil => rfl
  | cons c cs ih =>
    simp only [encodeStr, List.append_assoc]
    rw [decode_encodeChar, ih, List.cons_append]

/-- Decoding inverts encoding: `s.encode('utf-8').decode('utf-8')` is `s`. -/
theorem decode_encodeStr (s : List Char) : decodeBytes (encodeStr s) = s := by
  have h := decode_encodeStr_append s []
  rw [List.append_nil, decodeBytes_nil, List.append_nil] at h
  exact h

theorem encodeStr_ne_nil {s : List Char} (h : s ≠ []) : encodeStr s ≠ [] := by
  cases s with
  | nil => exact absurd rfl h
  | cons c cs =>
    simp only [encodeStr]
    intro hc
    exact encodeChar_ne_nil c (List.append_eq_nil.1 hc).1

/-! ### Structure of `urlSub`

These lemmas characterise the left-to-right substitution and culminate in the
idempotence of `urlSub` for a replacement of the shape `scheme://authority`. -/

/-- The head of `l` (if any) fails the authority class. -/
def headNotAuth (l : List Char) : Bool :=
  match l with
  | [] => true
  | c :: _ => !isAuthChar c

theorem takeWhile_isEmpty_iff (p : α → Bool) (l : List α) :
    (l.takeWhile p).isEmpty = true ↔ (match l with | [] => True | c :: _ => p c = false) := by
  cases l with
  | nil => simp
  | cons c cs =>
    by_cases hp : p c = true
    · rw [List.takeWhile_cons_of_pos hp]
      simp [hp]
    · rw [List.takeWhile_cons_of_neg hp]
      simp [hp]

theorem headNotAuth_dropWhile (t : List Char) :
    headNotAuth (t.dropWhile isAuthChar) = true := by
  induction t with
  | nil => rfl
  | cons c cs ih =>
    by_cases hp : isAuthChar c = true
    · rw [List.dropWhile_cons_of_pos hp]
      exact ih
    · rw [List.dropWhile_cons_of_neg hp]
      simp [headNotAuth, Bool.eq_false_iff.2 hp]

theorem span_append (p : α → Bool) (a r : List α) (ha : ∀ c ∈ a, p c = true)
    (hr : ∀ x xs, r = x :: xs → p x = false) :
    (a ++ r).takeWhile p = a ∧ (a ++ r).dropWhile p = r := by
  induction a with
  | nil =>
    cases r with
    | nil => simp
    | cons x xs =>
      have hx : p x = false := hr x xs rfl
      simp only [List.nil_append]
      exact ⟨List.takeWhile_cons_of_neg (by simp [hx]),
        List.dropWhile_cons_of_neg (by simp [hx])⟩
  | cons y ys ih =>
    have hy : p y = true := ha y (by simp)
    have ihr := ih (fun c hc => ha c (by simp [hc]))
    simp only [List.cons_append]
    rw [List.takeWhile_cons_of_pos hy, List.dropWhile_cons_of_pos hy]
    exact ⟨by rw [ihr.1], ihr.2⟩

theorem leads_https_not_http {l : List Char} (h : leadsWith httpsS l = true) :
    leadsWith httpS l = false := by
  by_contra hc
  have h2 : leadsWith httpS l = true := by
    cases hl : leadsWith httpS l with
    | false => exact absurd hl hc
    | true => rfl
  obtain ⟨t, ht⟩ := leadsWith_ex h
  obtain ⟨t2, ht2⟩ := leadsWith_ex h2
  rw [ht] at ht2
  simp [httpsS, httpS] at ht2

theorem leads_https_append_http (x : List Char) :
    leadsWith httpsS (httpS ++ x) = false := by
  cases hl : leadsWith httpsS (httpS ++ x) with
  | false => rfl
  | true =>
    obtain ⟨t, ht⟩ := leadsWith_ex hl
    simp [httpsS, httpS] at ht

theorem matchUrlAt_nil : matchUrlAt [] = none := rfl

theorem matchUrlAt_not_h {c : Char} (cs : List Char) (h : ¬c = 'h') :
    matchUrlAt (c :: cs) = none := by
  have h1 : leadsWith httpsS (c :: cs) = false := by
    simp only [httpsS, leadsWith]
    rw [if_neg (fun he => h he.symm)]
  have h2 : leadsWith httpS (c :: cs) = false := by
    simp only [httpS, leadsWith]
    rw [if_neg (fun he => h he.symm)]
  unfold matchUrlAt
  rw [if_neg (by simp [h1]), if_neg (by simp [h2])]

theorem matchUrlAt_some_decomp {l rest : List Char} (h : matchUrlAt l = some rest) :
    ∃ sch auth, (sch = httpsS ∨ sch = httpS) ∧ l = sch ++ (auth ++ rest) ∧ auth ≠ [] ∧
      (∀ c ∈ auth, isAuthChar c = true) ∧ headNotAuth rest = true := by
  unfold matchUrlAt at h
  by_cases h8 : leadsWith httpsS l = true
  · rw [if_pos h8] at h
    by_cases he : ((l.drop 8).takeWhile isAuthChar).isEmpty = true
    · rw [if_pos he] at h; exact absurd h (by simp)
    · rw [if_neg he] at h
      obtain ⟨t, ht⟩ := leadsWith_ex h8
      have hdrop : l.drop 8 = t := by
        rw [ht, show (8 : Nat) = httpsS.length from rfl, List.drop_left]
      have hrest : rest = t.dropWhile isAuthChar := by
        rw [← hdrop]; exact (Option.some_inj.1 h).symm
      refine ⟨httpsS, t.takeWhile isAuthChar, Or.inl rfl, ?_, ?_, ?_, ?_⟩
      · rw [ht, hrest, List.takeWhile_append_dropWhile]
      · intro hnil
        rw [← hdrop] at hnil
        simp [hnil] at he
      · intro c hc; exact List.mem_takeWhile_imp hc
      · rw [hrest]; exact headNotAuth_dropWhile t
  · rw [if_neg h8] at h
    by_cases h7 : leadsWith httpS l = true
    · rw [if_pos h7] at h
      by_cases he : ((l.drop 7).takeWhile isAuthChar).isEmpty = true
      · rw [if_pos he] at h; exact absurd h (by simp)
      · rw [if_neg he] at h
        obtain ⟨t, ht⟩ := leadsWith_ex h7
        have hdrop : l.drop 7 = t := by
          rw [ht, show (7 : Nat) = httpS.length from rfl, List.drop_left]
        have hrest : rest = t.dropWhile isAuthChar := by
          rw [← hdrop]; exact (Option.some_inj.1 h).symm
        refine ⟨httpS, t.takeWhile isAuthChar, Or.inr rfl, ?_, ?_, ?_, ?_⟩
        · rw [ht, hrest, List.takeWhile_append_dropWhile]
        · intro hnil
          rw [← hdrop] at hnil
          simp [hnil] at he
        · intro c hc; exact List.mem_takeWhile_imp hc
        · rw [hrest]; exact headNotAuth_dropWhile t
    · rw [if_neg h7] at h; exact absurd h (by simp)

theorem matchUrlAt_eq_none_iff (l : List Char) : matchUrlAt l = none ↔
    (leadsWith httpsS l = false ∨ headNotAuth (l.drop 8) = true) ∧
      (leadsWith httpS l = false ∨ headNotAuth (l.drop 7) = true) := by
  unfold matchUrlAt
  by_cases h8 : leadsWith httpsS l = true
  · rw [if_pos h8]
    have h7 : leadsWith httpS l = false := leads_https_not_http h8
    by_cases he : ((l.drop 8).takeWhile isAuthChar).isEmpty = true
    · rw [if_pos he]
      have hna : headNotAuth (l.drop 8) = true := by
        have := (takeWhile_isEmpty_iff isAuthChar (l.drop 8)).1 he
        cases hd : l.drop 8 with
        | nil => rfl
        | cons c cs =>
          rw [hd] at this
          simp [headNotAuth, this]
      simp [h7, hna]
    · rw [if_neg he]
      constructor
      · intro hc; exact absurd hc (by simp)
      · rintro ⟨h1 | h1, _⟩
        · rw [h8] at h1; exact absurd h1 (by simp)
        · exfalso
          apply he
          rw [takeWhile_isEmpty_iff]
          cases hd : l.drop 8 with
          | nil => trivial
          | cons c cs =>
            rw [hd] at h1
            simp only [headNotAuth] at h1
            simp at h1
            exact h1
  · rw [if_neg h8]
    have h8f : leadsWith httpsS l = false := by
      cases hl : leadsWith httpsS l with
      | false => rfl
      | true => exact absurd hl h8
    by_cases h7 : leadsWith httpS l = true
    · rw [if_pos h7]
      by_cases he : ((l.drop 7).takeWhile isAuthChar).isEmpty = true
      · rw [if_pos he]
        have hna : headNotAuth (l.drop 7) = true := by
          have := (takeWhile_isEmpty_iff isAuthChar (l.drop 7)).1 he
          cases hd : l.drop 7 with
          | nil => rfl
          | cons c cs =>
            rw [hd] at this
            simp [headNotAuth, this]
        simp [h8f, hna]
      · rw [if_neg he]
        constructor
        · intro hc; exact absurd hc (by simp)
        · rintro ⟨_, h1 | h1⟩
          · rw [h7] at h1; exact absurd h1 (by simp)
          · exfalso
            apply he
            rw [takeWhile_isEmpty_iff]
            cases hd : l.drop 7 with
            | nil => trivial
            | cons c cs =>
              rw [hd] at h1
              simp only [headNotAuth] at h1
              simp at h1
              exact h1
    · have h7f : leadsWith httpS l = false := by
        cases hl : leadsWith httpS l with
        | false => rfl
        | true => exact absurd hl h7
      rw [if_neg h7]
      simp [h8f, h7f]

/-- A target URL of the shape required for idempotent patching:
`http://` or `https://` followed by a nonempty authority with no `/` and no
whitespace, and no backslash anywhere (so `re.sub` treats it literally). -/
def wfTargetB (u : List Char) : Bool :=
  (leadsWith httpS u && !(u.drop 7).isEmpty && (u.drop 7).all isAuthChar ||
    leadsWith httpsS u && !(u.drop 8).isEmpty && (u.drop 8).all isAuthChar) &&
  u.all (fun c => !(c = '\\'))

theorem wfTarget_ex {u : List Char} (h : wfTargetB u = true) :
    ∃ sch a, (sch = httpsS ∨ sch = httpS) ∧ u = sch ++ a ∧ a ≠ [] ∧
      ∀ c ∈ a, isAuthChar c = true := by
  unfold wfTargetB at h
  simp only [Bool.and_eq_true, Bool.or_eq_true] at h
  rcases h.1 with ⟨⟨h7, hne⟩, hall⟩ | ⟨⟨h8, hne⟩, hall⟩
  · obtain ⟨t, ht⟩ := leadsWith_ex h7
    have hdrop : u.drop 7 = t := by
      rw [ht, show (7 : Nat) = httpS.length from rfl, List.drop_left]
    refine ⟨httpS, t, Or.inr rfl, ht, ?_, ?_⟩
    · intro hnil
      rw [hdrop, hnil] at hne
      simp at hne
    · intro c hc
      have := List.all_eq_true.1 (hdrop ▸ hall) c hc
      simpa using this
  · obtain ⟨t, ht⟩ := leadsWith_ex h8
    have hdrop : u.drop 8 = t := by
      rw [ht, show (8 : Nat) = httpsS.length from rfl, List.drop_left]
    refine ⟨httpsS, t, Or.inl rfl, ht, ?_, ?_⟩
    · intro hnil
      rw [hdrop, hnil] at hne
      simp at hne
    · intro c hc
      have := List.all_eq_true.1 (hdrop ▸ hall) c hc
      simpa using this

theorem wfTarget_head {u : List Char} (h : wfTargetB u = true) :
    ∃ t, u = 'h' :: t := by
  obtain ⟨sch, a, hsch, hu, _, _⟩ := wfTarget_ex h
  rcases hsch with rfl | rfl
  · exact ⟨['t', 't', 'p', 's', ':', '/', '/'] ++ a, by simpa [httpsS] using hu⟩
  · exact ⟨['t', 't', 'p', ':', '/', '/'] ++ a, by simpa [httpS] using hu⟩

theorem wfTarget_ne_nil {u : List Char} (h : wfTargetB u = true) : u ≠ [] := by
  obtain ⟨t, rfl⟩ := wfTarget_head h
  simp

/-- Outside matches, `urlSub` copies its input; characters other than `h`
can never start a match. -/
theorem urlSub_h_free_append (u : List Char) :
    ∀ pre l, (∀ ch ∈ pre, ¬ch = 'h') → urlSub u (pre ++ l) = pre ++ urlSub u l := by
  intro pre
  induction pre with
  | nil => intro l _; rfl
  | cons p ps ih =>
    intro l hp
    have hph : ¬p = 'h' := hp p (by simp)
    rw [List.cons_append, urlSub_cons_none u (matchUrlAt_not_h _ hph),
      ih l (fun ch hch => hp ch (by simp [hch])), List.cons_append]

theorem append_eq_extract {α : Type} :
    ∀ (b a x y : List α), a ++ x = b ++ y → b.length ≤ a.length → ∃ r, a = b ++ r := by
  intro b
  induction b with
  | nil => intro a x y _ _; exact ⟨a, rfl⟩
  | cons b0 bs ih =>
    intro a x y heq hlen
    cases a with
    | nil => simp at hlen
    | cons a0 as =>
      simp only [List.cons_append, List.cons.injEq] at heq
      obtain ⟨r, hr⟩ := ih as x y heq.2 (by simpa using hlen)
      exact ⟨r, by simp [heq.1, hr]⟩

/-- No match can start at the head of `(c :: pre') ++ X` when `c :: pre'`
contains no scheme substring and `X` starts with `h`: the scheme of such a
match would either lie within `c :: pre'` or put an `h` past the head of a
scheme literal. -/
theorem matchUrlAt_none_scheme_free {c : Char} {pre' X : List Char}
    (h7 : occursIn httpS (c :: pre') = false) (h8 : occursIn httpsS (c :: pre') = false)
    (hX : X.head? = some 'h') :
    matchUrlAt ((c :: pre') ++ X) = none := by
  cases hm : matchUrlAt ((c :: pre') ++ X) with
  | none => rfl
  | some rest =>
    exfalso
    obtain ⟨sch, auth, hsch, hdec, _, _, _⟩ := matchUrlAt_some_decomp hm
    by_cases hlen : sch.length ≤ (c :: pre').length
    · obtain ⟨r, hr⟩ := append_eq_extract sch (c :: pre') X (auth ++ rest) hdec hlen
      have hocc : occursIn sch (c :: pre') = true := by
        rw [hr]; exact occursIn_of_leadsWith (leadsWith_refl_append _ _)
      rcases hsch with rfl | rfl
      · rw [hocc] at h8; exact absurd h8 (by simp)
      · rw [hocc] at h7; exact absurd h7 (by simp)
    · obtain ⟨r, hr⟩ := append_eq_extract (c :: pre') sch (auth ++ rest) X hdec.symm
        (by omega)
      have hXr : X = r ++ (auth ++ rest) := by
        have hd := hdec
        rw [hr, List.append_assoc] at hd
        exact List.append_cancel_left hd
      cases r with
      | nil =>
        rw [List.append_nil] at hr
        rw [hr] at hlen
        exact hlen (Nat.le_refl _)
      | cons r0 rs =>
        have hr0 : r0 = 'h' := by
          rw [hXr] at hX
          simpa using hX
        have hmem : 'h' ∈ List.drop 1 sch := by
          rw [hr, List.cons_append, List.drop_succ_cons, List.drop_zero]
          exact List.mem_append_right _ (by simp [hr0])
        rcases hsch with rfl | rfl
        · exact absurd hmem (by decide)
        · exact absurd hmem (by decide)

/-- Outside matches, `urlSub` copies any scheme-free prefix standing before a
value that starts with a scheme. -/
theorem urlSub_scheme_free_append (u : List Char) :
    ∀ pre X, occursIn httpS pre = false → occursIn httpsS pre = false →
      X.head? = some 'h' → urlSub u (pre ++ X) = pre ++ urlSub u X := by
  intro pre
  induction pre with
  | nil => intro X _ _ _; rfl
  | cons c pre' ih =>
    intro X h7 h8 hX
    have hnone : matchUrlAt (c :: (pre' ++ X)) = none := by
      have h := matchUrlAt_none_scheme_free h7 h8 hX
      rwa [List.cons_append] at h
    rw [List.cons_append, urlSub_cons_none u hnone,
      ih X (occursIn_cons_tail h7) (occursIn_cons_tail h8) hX, List.cons_append]

/-- A scheme tail (no `h` inside) leading the output of `urlSub` must already
lead the input. -/
theorem leadsWith_urlSub_rev {u : List Char} (hu : wfTargetB u = true) :
    ∀ cs S, S ≠ [] → ('h' ∉ S) → leadsWith S (urlSub u cs) = true →
      leadsWith S cs = true := by
  have main : ∀ cs : List Char, (∀ m : List Char, m.length < cs.length →
      ∀ S, S ≠ [] → ('h' ∉ S) → leadsWith S (urlSub u m) = true → leadsWith S m = true) →
      ∀ S, S ≠ [] → ('h' ∉ S) → leadsWith S (urlSub u cs) = true → leadsWith S cs = true := by
    intro cs hind S hS hSh hlead
    cases cs with
    | nil =>
      rw [urlSub_nil] at hlead
      cases S with
      | nil => exact absurd rfl hS
      | cons s ss => simp [leadsWith] at hlead
    | cons c cs2 =>
      cases hm : matchUrlAt (c :: cs2) with
      | some rest =>
        rw [urlSub_cons_some u hm] at hlead
        obtain ⟨t, hut⟩ := wfTarget_head hu
        cases S with
        | nil => exact absurd rfl hS
        | cons s ss =>
          rw [hut] at hlead
          simp only [List.cons_append, leadsWith] at hlead
          split at hlead
          · next heq => exact absurd (heq ▸ List.mem_cons_self s ss) hSh
          · exact absurd hlead (by simp)
      | none =>
        rw [urlSub_cons_none u hm] at hlead
        cases S with
        | nil => exact absurd rfl hS
        | cons s ss =>
          simp only [leadsWith] at hlead ⊢
          split at hlead
          · next heq =>
            rw [if_pos heq]
            cases ss with
            | nil => rfl
            | cons s2 ss2 =>
              exact hind cs2 (by simp) (s2 :: ss2) (by simp)
                (fun hmem => hSh (List.mem_cons_of_mem s hmem)) hlead
          · exact absurd hlead (by simp)
  exact listLenInd main

theorem headNotAuth_urlSub (u : List Char) {l : List Char}
    (h : headNotAuth l = true) : headNotAuth (urlSub u l) = true := by
  cases l with
  | nil => rw [urlSub_nil]; rfl
  | cons d t =>
    simp only [headNotAuth] at h
    have hda : isAuthChar d = false := by
      cases hd : isAuthChar d with
      | false => rfl
      | true => rw [hd] at h; simp at h
    have hdh : ¬d = 'h' := by
      intro he
      rw [he] at hda
      simp [isAuthChar, isPySpace] at hda
    rw [urlSub_cons_none u (matchUrlAt_not_h _ hdh)]
    simp [headNotAuth, hda]

/-- If no match starts at `c :: cs`, no match starts at `c ::` the patched
tail either: patching cannot create a new match site. -/
theorem matchNone_preserved {u : List Char} (hu : wfTargetB u = true) {c : Char}
    {cs : List Char} (hn : matchUrlAt (c :: cs) = none) :
    matchUrlAt (c :: urlSub u cs) = none := by
  rw [matchUrlAt_eq_none_iff] at hn ⊢
  constructor
  · cases h8 : leadsWith httpsS (c :: urlSub u cs) with
    | false => exact Or.inl rfl
    | true =>
      right
      have hc : c = 'h' := by
        obtain ⟨t, ht⟩ := leadsWith_ex h8
        simpa [httpsS] using congrArg List.head? ht
      have hS1 : leadsWith ['t', 't', 'p', 's', ':', '/', '/'] (urlSub u cs) = true := by
        rw [hc] at h8
        simpa [httpsS, leadsWith] using h8
      have hcs : leadsWith ['t', 't', 'p', 's', ':', '/', '/'] cs = true :=
        leadsWith_urlSub_rev hu cs _ (by simp) (by decide) hS1
      obtain ⟨tail, htail⟩ := leadsWith_ex hcs
      have hlead8 : leadsWith httpsS (c :: cs) = true := by
        rw [hc, htail, httpsS]
        exact leadsWith_refl_append _ _
      have hna : headNotAuth ((c :: cs).drop 8) = true := by
        rcases hn.1 with h | h
        · rw [hlead8] at h; exact absurd h (by simp)
        · exact h
      have hdrop : (c :: cs).drop 8 = tail := by
        rw [htail, List.drop_succ_cons,
          show (7 : Nat) = (['t', 't', 'p', 's', ':', '/', '/'] : List Char).length from rfl,
          List.drop_left]
      have hsub : urlSub u cs = ['t', 't', 'p', 's', ':', '/', '/'] ++ urlSub u tail := by
        rw [htail]
        exact urlSub_h_free_append u _ _ (by decide)
      have hdrop2 : (c :: urlSub u cs).drop 8 = urlSub u tail := by
        rw [hsub, List.drop_succ_cons,
          show (7 : Nat) = (['t', 't', 'p', 's', ':', '/', '/'] : List Char).length from rfl,
          List.drop_left]
      rw [hdrop2]
      exact headNotAuth_urlSub u (hdrop ▸ hna)
  · cases h7 : leadsWith httpS (c :: urlSub u cs) with
    | false => exact Or.inl rfl
    | true =>
      right
      have hc : c = 'h' := by
        obtain ⟨t, ht⟩ := leadsWith_ex h7
        simpa [httpS] using congrArg List.head? ht
      have hS1 : leadsWith ['t', 't', 'p', ':', '/', '/'] (urlSub u cs) = true := by
        rw [hc] at h7
        simpa [httpS, leadsWith] using h7
      have hcs : leadsWith ['t', 't', 'p', ':', '/', '/'] cs = true :=
        leadsWith_urlSub_rev hu cs _ (by simp) (by decide) hS1
      obtain ⟨tail, htail⟩ := leadsWith_ex hcs
      have hlead7 : leadsWith httpS (c :: cs) = true := by
        rw [hc, htail, httpS]
        exact leadsWith_refl_append _ _
      have hna : headNotAuth ((c :: cs).drop 7) = true := by
        rcases hn.2 with h | h
        · rw [hlead7] at h; exact absurd h (by simp)
        · exact h
      have hdrop : (c :: cs).drop 7 = tail := by
        rw [htail, List.drop_succ_cons,
          show (6 : Nat) = (['t', 't', 'p', ':', '/', '/'] : List Char).length from rfl,
          List.drop_left]
      have hsub : urlSub u cs = ['t', 't', 'p', ':', '/', '/'] ++ urlSub u tail := by
        rw [htail]
        exact urlSub_h_free_append u _ _ (by decide)
      have hdrop2 : (c :: urlSub u cs).drop 7 = urlSub u tail := by
        rw [hsub, List.drop_succ_cons,
          show (6 : Nat) = (['t', 't', 'p', ':', '/', '/'] : List Char).length from rfl,
          List.drop_left]
      rw [hdrop2]
      exact headNotAuth_urlSub u (hdrop ▸ hna)

/-- A well-formed target put in front of a non-authority continuation is
matched exactly, leaving the continuation. -/
theorem headNotAuth_elim {o : List Char} (ho : headNotAuth o = true) :
    ∀ x xs, o = x :: xs → isAuthChar x = false := by
  intro x xs he
  subst he
  simpa [headNotAuth] using ho

theorem matchUrlAt_target {u : List Char} (hu : wfTargetB u = true) {o : List Char}
    (ho : headNotAuth o = true) : matchUrlAt (u ++ o) = some o := by
  obtain ⟨sch, a, hsch, hua, hane, haall⟩ := wfTarget_ex hu
  have hspan := span_append isAuthChar a o haall (headNotAuth_elim ho)
  rcases hsch with rfl | rfl
  · have hlead : leadsWith httpsS (u ++ o) = true := by
      rw [hua, List.append_assoc]
      exact leadsWith_refl_append _ _
    have hdrop : (u ++ o).drop 8 = a ++ o := by
      rw [hua, List.append_assoc, show (8 : Nat) = httpsS.length from rfl, List.drop_left]
    unfold matchUrlAt
    rw [if_pos hlead, hdrop, hspan.1, hspan.2,
      if_neg (by simp [List.isEmpty_iff, hane])]
  · have hlead : leadsWith httpS (u ++ o) = true := by
      rw [hua, List.append_assoc]
      exact leadsWith_refl_append _ _
    have hlead8 : leadsWith httpsS (u ++ o) = false := by
      rw [hua, List.append_assoc]
      exact leads_https_append_http _
    have hdrop : (u ++ o).drop 7 = a ++ o := by
      rw [hua, List.append_assoc, show (7 : Nat) = httpS.length from rfl, List.drop_left]
    unfold matchUrlAt
    rw [if_neg (by simp [hlead8]), if_pos hlead, hdrop, hspan.1, hspan.2,
      if_neg (by simp [List.isEmpty_iff, hane])]

/-- Generalisation of `matchUrlAt_target` to an explicit scheme/authority
split. -/
theorem matchUrlAt_scheme {sch auth rest : List Char}
    (hsch : sch = httpsS ∨ sch = httpS) (ha : auth ≠ [])
    (hall : ∀ c ∈ auth, isAuthChar c = true) (hrest : headNotAuth rest = true) :
    matchUrlAt (sch ++ (auth ++ rest)) = some rest := by
  have hspan := span_append isAuthChar auth rest hall (headNotAuth_elim hrest)
  rcases hsch with rfl | rfl
  · have hlead : leadsWith httpsS (httpsS ++ (auth ++ rest)) = true :=
      leadsWith_refl_append _ _
    have hdrop : (httpsS ++ (auth ++ rest)).drop 8 = auth ++ rest := by
      rw [show (8 : Nat) = httpsS.length from rfl, List.drop_left]
    unfold matchUrlAt
    rw [if_pos hlead, hdrop, hspan.1, hspan.2, if_neg (by simp [List.isEmpty_iff, ha])]
  · have hlead : leadsWith httpS (httpS ++ (auth ++ rest)) = true :=
      leadsWith_refl_append _ _
    have hlead8 : leadsWith httpsS (httpS ++ (auth ++ rest)) = false :=
      leads_https_append_http _
    have hdrop : (httpS ++ (auth ++ rest)).drop 7 = auth ++ rest := by
      rw [show (7 : Nat) = httpS.length from rfl, List.drop_left]
    unfold matchUrlAt
    rw [if_neg (by simp [hlead8]), if_pos hlead, hdrop, hspan.1, hspan.2,
      if_neg (by simp [List.isEmpty_iff, ha])]

theorem urlSub_target_append {u : List Char} (hu : wfTargetB u = true) {o : List Char}
    (ho : headNotAuth o = true) : urlSub u (u ++ o) = u ++ urlSub u o := by
  obtain ⟨t, hut⟩ := wfTarget_head hu
  subst hut
  exact urlSub_cons_some _ (matchUrlAt_target hu ho)

theorem matchUrlAt_some_headNotAuth {l rest : List Char} (h : matchUrlAt l = some rest) :
    headNotAuth rest = true := by
  obtain ⟨_, _, _, _, _, _, hna⟩ := matchUrlAt_some_decomp h
  exact hna

/-- Idempotence of the substitution for a well-formed target. -/
theorem urlSub_idem {u : List Char} (hu : wfTargetB u = true) :
    ∀ l, urlSub u (urlSub u l) = urlSub u l := by
  have main : ∀ l : List Char,
      (∀ m : List Char, m.length < l.length → urlSub u (urlSub u m) = urlSub u m) →
      urlSub u (urlSub u l) = urlSub u l := by
    intro l hind
    cases l with
    | nil => rw [urlSub_nil, urlSub_nil]
    | cons c cs =>
      cases hm : matchUrlAt (c :: cs) with
      | some rest =>
        rw [urlSub_cons_some u hm]
        have ho : headNotAuth (urlSub u rest) = true :=
          headNotAuth_urlSub u (matchUrlAt_some_headNotAuth hm)
        rw [urlSub_target_append hu ho,
          hind rest (matchUrlAt_length hm)]
      | none =>
        rw [urlSub_cons_none u hm, urlSub_cons_none u (matchNone_preserved hu hm),
          hind cs (by simp)]
  exact listLenInd main

theorem urlSub_ne_nil {u l : List Char} (hu : u ≠ []) (hl : l ≠ []) :
    urlSub u l ≠ [] := by
  cases l with
  | nil => exact absurd rfl hl
  | cons c cs =>
    cases hm : matchUrlAt (c :: cs) with
    | some rest =>
      rw [urlSub_cons_some u hm]
      intro hc
      exact hu (List.append_eq_nil.1 hc).1
    | none =>
      rw [urlSub_cons_none u hm]
      simp

/-- A value with no scheme occurrence is left alone by the substitution. -/
theorem urlSub_no_scheme {u : List Char} :
    ∀ l, occursIn httpS l = false → occursIn httpsS l = false → urlSub u l = l := by
  have main : ∀ l : List Char,
      (∀ m : List Char, m.length < l.length →
        occursIn httpS m = false → occursIn httpsS m = false → urlSub u m = m) →
      occursIn httpS l = false → occursIn httpsS l = false → urlSub u l = l := by
    intro l hind h7 h8
    cases l with
    | nil => exact urlSub_nil u
    | cons c cs =>
      cases hm : matchUrlAt (c :: cs) with
      | some rest =>
        obtain ⟨sch, auth, hsch, hdec, _, _, _⟩ := matchUrlAt_some_decomp hm
        rcases hsch with rfl | rfl
        · have hocc : occursIn httpsS (c :: cs) = true := by
            rw [hdec]
            exact occursIn_of_leadsWith (leadsWith_refl_append _ _)
          rw [hocc] at h8
          exact absurd h8 (by simp)
        · have hocc : occursIn httpS (c :: cs) = true := by
            rw [hdec]
            exact occursIn_of_leadsWith (leadsWith_refl_append _ _)
          rw [hocc] at h7
          exact absurd h7 (by simp)
      | none =>
        rw [urlSub_cons_none u hm,
          hind cs (by simp) (occursIn_cons_tail h7) (occursIn_cons_tail h8)]
  exact listLenInd main

/-! ### The payload model and `patch_payload_for_local_server`

A payload is the logical content of the sqlite database: a list of tables,
each with its `PRAGMA table_info` declared column types and its rows (rowid
plus one value per column).  `patch_payload_for_local_server` (lines 133-190)
iterates every table and, for every column whose declared type mentions
`TEXT`, `VARCHAR` or `BLOB`, rewrites every non-empty `str`/`bytes` value that
contains `http://` or `https://` with `re.sub`; `bytes` values are decoded
with `errors='ignore'` first and re-encoded after.  All other cells are
written back unchanged (or never touched). -/

/-- A sqlite value as returned to Python: `None`, an integer, a `str`, or a
`bytes` blob.  (Floats behave exactly like integers here: they fail the
`isinstance(value, (str, bytes))` test and are never rewritten.) -/
inductive Value where
  | vNull : Value
  | vInt : Int → Value
  | vStr : List Char → Value
  | vBytes : List Nat → Value
deriving DecidableEq

/-- A column: its name and the declared type from `PRAGMA table_info`. -/
structure Column where
  name : List Char
  declType : List Char
deriving DecidableEq

/-- A table: name, columns, and rows of `(rowid, values)`. -/
structure Table where
  name : List Char
  cols : List Column
  rows : List (Nat × List Value)
deriving DecidableEq

/-- The column filter at line 154:
`'TEXT' in col_type or 'VARCHAR' in col_type or 'BLOB' in col_type`. -/
def textyCol (t : List Char) : Bool :=
  occursIn "TEXT".toList t || occursIn "VARCHAR".toList t || occursIn "BLOB".toList t

/-- Lines 159-182 for one cell of a scanned column: skip falsy values and
non-`str`/`bytes` values; otherwise decode, test for a scheme substring, and
substitute. -/
def patchValue (u : List Char) (v : Value) : Value :=
  match v with
  | .vStr s =>
    if s.isEmpty then v
    else if occursIn httpS s || occursIn httpsS s then .vStr (urlSub u s) else v
  | .vBytes b =>
    if b.isEmpty then v
    else if occursIn httpS (decodeBytes b) || occursIn httpsS (decodeBytes b) then
      .vBytes (encodeStr (urlSub u (decodeBytes b)))
    else v
  | v => v

/-- One cell: only columns passing the declared-type filter are scanned. -/
def patchCell (u : List Char) (col : Column) (v : Value) : Value :=
  if textyCol col.declType then patchValue u v else v

/-- One row: each value is patched against its own column. -/
def patchRowVals (u : List Char) (cols : List Column) (vals : List Value) : List Value :=
  List.zipWith (fun col v => patchCell u col v) cols vals

/-- One table. -/
def patchTable (u : List Char) (t : Table) : Table :=
  Table.mk t.name t.cols (t.rows.map (fun r => (r.1, patchRowVals u t.cols r.2)))

/-- The patched copy produced by `patch_payload_for_local_server` (its logical
content; the function itself returns a fresh temporary file holding it). -/
def patchPayload (u : List Char) (p : List Table) : List Table :=
  p.map (patchTable u)

/-- What can go wrong inside `patch_payload_for_local_server`. -/
inductive PatchErr where
  | copyErr : PatchErr
  | dbErr : PatchErr
deriving DecidableEq

/-- Outcome of one call to `patch_payload_for_local_server`: the result (the
patched content, or the error re-raised to the caller) and whether the
temporary file created by `tempfile.mkstemp` still exists when the call
returns or raises. -/
structure PatchResult where
  outcome : Except PatchErr (List Table)
  tempExists : Bool

/-- Control-flow skeleton of `patch_payload_for_local_server` (lines 126-196):
`mkstemp` creates the temporary file; `shutil.copy2` runs before the
`try` block, so a copy failure propagates without the `except` cleanup; any
failure inside the `try` (modelled by `dbOk = false`) removes the temporary
file before re-raising; on success the temporary file is returned. -/
def patchRun (copyOk dbOk : Bool) (p : List Table) (u : List Char) : PatchResult :=
  if !copyOk then PatchResult.mk (Except.error PatchErr.copyErr) true
  else if !dbOk then PatchResult.mk (Except.error PatchErr.dbErr) false
  else PatchResult.mk (Except.ok (patchPayload u p)) true

theorem patchValue_idem {u : List Char} (hu : wfTargetB u = true) (v : Value) :
    patchValue u (patchValue u v) = patchValue u v := by
  cases v with
  | vNull => rfl
  | vInt n => rfl
  | vStr s =>
    by_cases hempty : s.isEmpty = true
    · simp [patchValue, hempty]
    · by_cases hocc : (occursIn httpS s || occursIn httpsS s) = true
      · have hne : urlSub u s ≠ [] :=
          urlSub_ne_nil (wfTarget_ne_nil hu) (by simpa [List.isEmpty_iff] using hempty)
        have hne2 : ¬(urlSub u s).isEmpty = true := by
          simpa [List.isEmpty_iff] using hne
        by_cases hocc2 : (occursIn httpS (urlSub u s) || occursIn httpsS (urlSub u s)) = true
        · simp [patchValue, hempty, hocc, hne2, hocc2, urlSub_idem hu]
        · simp [patchValue, hempty, hocc, hne2, hocc2]
      · simp [patchValue, hempty, hocc]
  | vBytes b =>
    by_cases hempty : b.isEmpty = true
    · simp [patchValue, hempty]
    · by_cases hocc : (occursIn httpS (decodeBytes b) || occursIn httpsS (decodeBytes b)) = true
      · have hsne : decodeBytes b ≠ [] := by
          intro hnil
          rw [hnil] at hocc
          simp [occursIn, httpS, httpsS, List.isEmpty] at hocc
        have hsubne : urlSub u (decodeBytes b) ≠ [] :=
          urlSub_ne_nil (wfTarget_ne_nil hu) hsne
        have hencne : ¬(encodeStr (urlSub u (decodeBytes b))).isEmpty = true := by
          simpa [List.isEmpty_iff] using encodeStr_ne_nil hsubne
        have hdec : decodeBytes (encodeStr (urlSub u (decodeBytes b))) =
            urlSub u (decodeBytes b) := decode_encodeStr _
        by_cases hocc2 : (occursIn httpS (urlSub u (decodeBytes b)) ||
            occursIn httpsS (urlSub u (decodeBytes b))) = true
        · simp [patchValue, hempty, hocc, hencne, hdec, hocc2, urlSub_idem hu]
        · simp [patchValue, hempty, hocc, hencne, hdec, hocc2]
      · simp [patchValue, hempty, hocc]

theorem patchCell_idem {u : List Char} (hu : wfTargetB u = true) (col : Column) (v : Value) :
    patchCell u col (patchCell u col v) = patchCell u col v := by
  unfold patchCell
  by_cases ht : textyCol col.declType = true
  · rw [if_pos ht, if_pos ht, patchValue_idem hu]
  · rw [if_neg ht, if_neg ht]

theorem patchRowVals_idem {u : List Char} (hu : wfTargetB u = true) :
    ∀ (cols : List Column) (vals : List Value),
      patchRowVals u cols (patchRowVals u cols vals) = patchRowVals u cols vals := by
  intro cols
  induction cols with
  | nil => intro vals; rfl
  | cons c cs ih =>
    intro vals
    cases vals with
    | nil => rfl
    | cons v vs =>
      simp only [patchRowVals, List.zipWith_cons_cons] at *
      rw [patchCell_idem hu, ih vs]

theorem patchTable_idem {u : List Char} (hu : wfTargetB u = true) (t : Table) :
    patchTable u (patchTable u t) = patchTable u t := by
  unfold patchTable
  simp only [List.map_map]
  congr 1
  apply List.map_congr_left
  intro r _
  simp only [Function.comp]
  rw [patchRowVals_idem hu]

theorem patchPayload_idem {u : List Char} (hu : wfTargetB u = true) (p : List Table) :
    patchPayload u (patchPayload u p) = patchPayload u p := by
  unfold patchPayload
  rw [List.map_map]
  apply List.map_congr_left
  intro t _
  simp only [Function.comp]
  rw [patchTable_idem hu]

/-! ### The request handler `PlistRequestHandler.do_GET`

Lines 206-248: extract `model` and `build` tokens from the User-Agent with
`re.search(r'model/([a-zA-Z0-9,]+)', ...)` and `re.search(r'build/([a-zA-Z0-9]+)', ...)`,
403 if either is missing or contains `..`, then resolve
`backend/plists/<model>/<build>/patched.plist`, 404 if absent, 500 on a read
error, otherwise 200 with five handler-set headers and the file bytes.
The filesystem is a map from paths to entries; `queries` records every path
the handler touches (`os.path.exists` and `open`). -/

/-- The class `[a-zA-Z0-9]`. -/
def isAlphaNumCh (c : Char) : Bool :=
  ('a' ≤ c && c ≤ 'z') || ('A' ≤ c && c ≤ 'Z') || ('0' ≤ c && c ≤ '9')

/-- The class `[a-zA-Z0-9,]` of the model token. -/
def modelCls (c : Char) : Bool := isAlphaNumCh c || c = ','

/-- The class `[a-zA-Z0-9]` of the build token. -/
def buildCls (c : Char) : Bool := isAlphaNumCh c

/-- The literal `model/`. -/
def modelPat : List Char := ['m', 'o', 'd', 'e', 'l', '/']

/-- The literal `build/`. -/
def buildPat : List Char := ['b', 'u', 'i', 'l', 'd', '/']

/-- The literal `..` of the traversal gate. -/
def ddot : List Char := ['.', '.']

/-- `re.search` for `pat` followed by a nonempty greedy run of `cls`
characters: try each position left to right, return the first capture. -/
def tokenSearch (pat : List Char) (cls : Char → Bool) : List Char → Option (List Char)
  | [] => none
  | c :: cs =>
    if leadsWith pat (c :: cs) then
      if (((c :: cs).drop pat.length).takeWhile cls).isEmpty then tokenSearch pat cls cs
      else some (((c :: cs).drop pat.length).takeWhile cls)
    else tokenSearch pat cls cs

/-- What the handler's filesystem can say about a path. -/
inductive FsEntry where
  | absent : FsEntry
  | unreadable : FsEntry
  | file : List Nat → FsEntry
deriving DecidableEq

/-- The response assembled by `do_GET` plus the audit trail of paths the
handler resolved on the filesystem.  `headers` is the full wire header block
of the response, including the `Server` and `Date` headers that Python's
`BaseHTTPRequestHandler.send_response` emits automatically on every
response. -/
structure GetResult where
  status : Nat
  headers : List (String × String)
  body : List Nat
  queries : List (List Char)

/-- `resource_path('backend/plists')` relative to the application root. -/
def baseDir : List Char := "backend/plists".toList

/-- `os.path.join(base_dir, model, build, 'patched.plist')`. -/
def plistPath (m b : List Char) : List Char :=
  baseDir ++ ('/' :: m) ++ ('/' :: b) ++ ('/' :: "patched.plist".toList)

/-- The five headers the handler itself sends on success (lines 240-244), in
order. -/
def respHeaders (content : List Nat) : List (String × String) :=
  [("Content-Type", "application/xml"),
   ("Content-Length", toString content.length),
   ("Content-Disposition", "attachment; filename=\"patched.plist\""),
   ("Cache-Control", "must-revalidate"),
   ("Pragma", "public")]

/-- The header block of a `send_error` response: `send_response` first emits
`Server` and `Date`, then `send_error` adds `Connection: close`, its error
content type, and the length of the library-formatted HTML error page. -/
def errHeaders (serverHdr dateHdr : String) (page : List Nat) : List (String × String) :=
  [("Server", serverHdr), ("Date", dateHdr), ("Connection", "close"),
   ("Content-Type", "text/html;charset=utf-8"),
   ("Content-Length", toString page.length)]

/-- `PlistRequestHandler.do_GET`.  A missing User-Agent header reads as `''`
(line 207).  `serverHdr` and `dateHdr` are the values of the `Server` and
`Date` headers that `BaseHTTPRequestHandler.send_response` emits
automatically on every response (the library's version string and the current
clock); `errPage` gives, per status code, the bytes of the HTML error page
`send_error` formats inside the library — both are produced entirely by
`http.server`, so the model takes them as inputs. -/
def do_GET (ua : Option (List Char)) (fs : List Char → FsEntry)
    (serverHdr dateHdr : String) (errPage : Nat → List Nat) : GetResult :=
  match tokenSearch modelPat modelCls (ua.getD []),
      tokenSearch buildPat buildCls (ua.getD []) with
  | some m, some b =>
    if occursIn ddot m || occursIn ddot b then
      GetResult.mk 403 (errHeaders serverHdr dateHdr (errPage 403)) (errPage 403) []
    else
      match fs (plistPath m b) with
      | FsEntry.absent =>
        GetResult.mk 404 (errHeaders serverHdr dateHdr (errPage 404)) (errPage 404)
          [plistPath m b]
      | FsEntry.unreadable =>
        GetResult.mk 500 (errHeaders serverHdr dateHdr (errPage 500)) (errPage 500)
          [plistPath m b, plistPath m b]
      | FsEntry.file content =>
        GetResult.mk 200
          (("Server", serverHdr) :: ("Date", dateHdr) :: respHeaders content)
          content [plistPath m b, plistPath m b]
  | _, _ => GetResult.mk 403 (errHeaders serverHdr dateHdr (errPage 403)) (errPage 403) []

theorem tokenSearch_spec (pat : List Char) (cls : Char → Bool) :
    ∀ ua t, tokenSearch pat cls ua = some t → t ≠ [] ∧ ∀ c ∈ t, cls c = true := by
  intro ua
  induction ua with
  | nil => intro t h; exact absurd h (by simp [tokenSearch])
  | cons c cs ih =>
    intro t h
    unfold tokenSearch at h
    by_cases hl : leadsWith pat (c :: cs) = true
    · rw [if_pos hl] at h
      by_cases he : (((c :: cs).drop pat.length).takeWhile cls).isEmpty = true
      · rw [if_pos he] at h
        exact ih t h
      · rw [if_neg he] at h
        have ht : t = ((c :: cs).drop pat.length).takeWhile cls := (Option.some_inj.1 h).symm
        constructor
        · intro hnil
          rw [← ht] at he
          simp [hnil] at he
        · intro x hx
          rw [ht] at hx
          exact List.mem_takeWhile_imp hx
    · rw [if_neg hl] at h
      exact ih t h

theorem modelCls_chars {c : Char} (h : modelCls c = true) :
    ¬c = '.' ∧ ¬c = '/' ∧ ¬c = '\\' := by
  refine ⟨?_, ?_, ?_⟩ <;> intro he <;> subst he <;>
    exact absurd h (by decide)

theorem buildCls_chars {c : Char} (h : buildCls c = true) :
    ¬c = '.' ∧ ¬c = '/' ∧ ¬c = '\\' ∧ ¬c = ',' := by
  refine ⟨?_, ?_, ?_, ?_⟩ <;> intro he <;> subst he <;>
    exact absurd h (by decide)

theorem no_ddot_of_no_dot {t : List Char} (h : ∀ c ∈ t, ¬c = '.') :
    occursIn ddot t = false := by
  cases ho : occursIn ddot t with
  | false => rfl
  | true => exact absurd rfl (h '.' (mem_of_occursIn_head ho))

/-! ### The orchestrator `ActivationThread.run`

Lines 322-395, modelled as a pure function from the run inputs to the list of
observable events, on the paths where the transport service and the patcher do
not raise (exceptional termination of the patcher itself is `patchRun` above).
`push_payload` (lines 305-314) contributes the events push, restart, the fixed
10 s settle sleep and the reconnect wait of each attempt. -/

/-- A Python value as seen by `should_hactivate`: the readiness flag can be a
bool, absent (`None`, since `dict.get` of a missing key is `None`), or any
other object.  `x is not False` holds for everything except the `False`
constant. -/
inductive PyVal where
  | pyNone : PyVal
  | pyBool : Bool → PyVal
  | pyStr : String → PyVal
  | pyInt : Int → PyVal
deriving DecidableEq

/-- Observable events of one orchestrator run, in order. -/
inductive Ev where
  | serverStart : Ev
  | serverStop : Ev
  | removeTemp : Ev
  | patchEv : Ev
  | push : Ev
  | restartEv : Ev
  | reconnect : Ev
  | sleepEv : Nat → Ev
  | statusEv : String → Ev
  | successEv : String → Ev
  | errorEv : String → Ev
deriving DecidableEq

/-- `f'Retrying activation\nAttempt {attempt + 1}/5'` (line 367). -/
def attemptMsg (i : Nat) : String :=
  "Retrying activation\nAttempt " ++ toString (i + 1) ++ "/5"

/-- The failure message of lines 370-375. -/
def failMsg (useLocal : Bool) : String :=
  if useLocal then
    "Activation failed after multiple attempts. Make sure the device can reach the local server via USB network."
  else
    "Activation failed after multiple attempts. Make sure the device is connected to the Wi-Fi."

/-- The events of one `push_payload` call: AFC file push, restart,
`time.sleep(10)`, then `wait_for_device`. -/
def pushEvents : List Ev := [Ev.push, Ev.restartEv, Ev.sleepEv 10, Ev.reconnect]

/-- The retry loop (lines 359-375) from attempt `i` with `fuel` attempts left;
`fuel = 0` is the fall-through to the error emission. -/
def loopFrom (useLocal : Bool) (should : Nat → PyVal) (i : Nat) : Nat → List Ev
  | 0 => [Ev.errorEv (failMsg useLocal)]
  | fuel + 1 =>
    pushEvents ++
      (if should i = PyVal.pyBool false then
        Ev.statusEv (attemptMsg i) :: Ev.sleepEv 5 ::
          loopFrom useLocal should (i + 1) fuel
      else [Ev.restartEv, Ev.successEv "Done!"])

/-- Inputs of one run: the chosen backend, what `get_local_server_url`
returned, the `ActivationState` value of the device snapshot, and the
readiness flag returned by `should_hactivate` on each attempt. -/
structure RunInput where
  useLocal : Bool
  method : String
  warnings : List String
  activationState : PyVal
  should : Nat → PyVal

/-- Lines 334-336: one status with the first warning truncated to 100
characters, emitted only when there are warnings. -/
def platformNote (warnings : List String) : List Ev :=
  match warnings with
  | [] => []
  | w :: _ => [Ev.statusEv ("Platform note:\n" ++ w.take 100 ++ "...")]

/-- Lines 324-343: local backend preparation, which runs before anything asks
the device about its activation state. -/
def prepEvents (inp : RunInput) : List Ev :=
  if inp.useLocal then
    Ev.serverStart :: Ev.statusEv ("Started local server\n" ++ inp.method) ::
      (platformNote inp.warnings ++
        [Ev.sleepEv 1, Ev.statusEv "Patching payload for local server...", Ev.patchEv])
  else []

/-- The `finally` block, lines 383-395: stop the server if started, remove the
patched payload if created. -/
def cleanupEvents (inp : RunInput) : List Ev :=
  if inp.useLocal then [Ev.serverStop, Ev.removeTemp] else []

/-- `ActivationThread.run`. -/
def runModel (inp : RunInput) : List Ev :=
  prepEvents inp ++
    (if inp.activationState = PyVal.pyStr "Activated" then
      [Ev.successEv "Device is already activated"]
    else
      Ev.statusEv
          (if inp.useLocal then "Activating device with local server..."
           else "Activating device...") ::
        loopFrom inp.useLocal inp.should 0 5) ++
    cleanupEvents inp

/-- Occurrence count of one event. -/
def countEv (e : Ev) : List Ev → Nat
  | [] => 0
  | x :: xs => (if x = e then 1 else 0) + countEv e xs

theorem countEv_append (e : Ev) (a b : List Ev) :
    countEv e (a ++ b) = countEv e a + countEv e b := by
  induction a with
  | nil => simp [countEv]
  | cons x xs ih => simp [countEv, ih]; omega

/-- The trace of one rejected attempt. -/
def rejectGroup (i : Nat) : List Ev :=
  pushEvents ++ [Ev.statusEv (attemptMsg i), Ev.sleepEv 5]

/-- `k` consecutive rejected attempts starting at attempt `i`. -/
def groupsFrom (i : Nat) : Nat → List Ev
  | 0 => []
  | k + 1 => rejectGroup i ++ groupsFrom (i + 1) k

theorem loopFrom_reject {should : Nat → PyVal} {i : Nat} (useLocal : Bool) (fuel : Nat)
    (h : should i = PyVal.pyBool false) :
    loopFrom useLocal should i (fuel + 1) =
      rejectGroup i ++ loopFrom useLocal should (i + 1) fuel := by
  simp [loopFrom, rejectGroup, h]

theorem loopFrom_success {should : Nat → PyVal} {i : Nat} (useLocal : Bool) (fuel : Nat)
    (h : ¬should i = PyVal.pyBool false) :
    loopFrom useLocal should i (fuel + 1) =
      pushEvents ++ [Ev.restartEv, Ev.successEv "Done!"] := by
  simp [loopFrom, h]

theorem loopFrom_skip (useLocal : Bool) (should : Nat → PyVal) :
    ∀ k i m, (∀ j, i ≤ j → j < i + k → should j = PyVal.pyBool false) →
      loopFrom useLocal should i (k + m) =
        groupsFrom i k ++ loopFrom useLocal should (i + k) m := by
  intro k
  induction k with
  | zero => intro i m _; simp [groupsFrom]
  | succ k ih =>
    intro i m hfalse
    have hi : should i = PyVal.pyBool false := hfalse i (Nat.le_refl _) (by omega)
    have hstep : k + 1 + m = (k + m) + 1 := by omega
    rw [hstep, loopFrom_reject useLocal (k + m) hi,
      ih (i + 1) m (fun j h1 h2 => hfalse j (by omega) (by omega))]
    simp only [groupsFrom, List.append_assoc]
    have : i + 1 + k = i + (k + 1) := by omega
    rw [this]

theorem groupsFrom_snoc (i : Nat) : ∀ k,
    groupsFrom i (k + 1) = groupsFrom i k ++ rejectGroup (i + k) := by
  have main : ∀ k i, groupsFrom i (k + 1) = groupsFrom i k ++ rejectGroup (i + k) := by
    intro k
    induction k with
    | zero => intro i; simp [groupsFrom]
    | succ k ih =>
      intro i
      have h1 : groupsFrom i (k + 1 + 1) = rejectGroup i ++ groupsFrom (i + 1) (k + 1) := rfl
      rw [h1, ih (i + 1)]
      simp only [groupsFrom, List.append_assoc]
      have : i + 1 + k = i + (k + 1) := by omega
      rw [this]
  exact fun k => main k i

theorem countEv_push_groups (i k : Nat) :
    countEv Ev.push (groupsFrom i k) = k := by
  induction k generalizing i with
  | zero => rfl
  | succ k ih =>
    simp only [groupsFrom, countEv_append, ih]
    simp [rejectGroup, pushEvents, countEv_append, countEv]
    omega

theorem success_not_mem_groups (s : String) (i k : Nat) :
    Ev.successEv s ∉ groupsFrom i k := by
  induction k generalizing i with
  | zero => simp [groupsFrom]
  | succ k ih =>
    simp only [groupsFrom, List.mem_append]
    rintro (h | h)
    · simp [rejectGroup, pushEvents] at h
    · exact ih (i + 1) h

theorem error_not_mem_groups (s : String) (i k : Nat) :
    Ev.errorEv s ∉ groupsFrom i k := by
  induction k generalizing i with
  | zero => simp [groupsFrom]
  | succ k ih =>
    simp only [groupsFrom, List.mem_append]
    rintro (h | h)
    · simp [rejectGroup, pushEvents] at h
    · exact ih (i + 1) h

theorem statusEv_mem_groups : ∀ k i j, i ≤ j → j < i + k →
    Ev.statusEv (attemptMsg j) ∈ groupsFrom i k := by
  intro k
  induction k with
  | zero => intro i j h1 h2; omega
  | succ k ih =>
    intro i j h1 h2
    simp only [groupsFrom, List.mem_append]
    by_cases hij : j = i
    · subst hij
      left
      simp [rejectGroup, pushEvents]
    · right
      exact ih (i + 1) j (by omega) (by omega)

theorem push_not_mem_prep (inp : RunInput) : Ev.push ∉ prepEvents inp := by
  unfold prepEvents
  by_cases hl : inp.useLocal = true
  · rw [if_pos hl]
    cases hw : inp.warnings <;> simp [platformNote]
  · rw [if_neg hl]
    simp

theorem success_not_mem_prep (s : String) (inp : RunInput) :
    Ev.successEv s ∉ prepEvents inp := by
  unfold prepEvents
  by_cases hl : inp.useLocal = true
  · rw [if_pos hl]
    cases hw : inp.warnings <;> simp [platformNote]
  · rw [if_neg hl]
    simp

theorem error_not_mem_prep (s : String) (inp : RunInput) :
    Ev.errorEv s ∉ prepEvents inp := by
  unfold prepEvents
  by_cases hl : inp.useLocal = true
  · rw [if_pos hl]
    cases hw : inp.warnings <;> simp [platformNote]
  · rw [if_neg hl]
    simp

theorem countEv_push_prep (inp : RunInput) : countEv Ev.push (prepEvents inp) = 0 := by
  unfold prepEvents
  by_cases hl : inp.useLocal = true
  · rw [if_pos hl]
    cases hw : inp.warnings <;> simp [platformNote, countEv, countEv_append]
  · rw [if_neg hl]
    rfl

theorem countEv_push_cleanup (inp : RunInput) : countEv Ev.push (cleanupEvents inp) = 0 := by
  unfold cleanupEvents
  by_cases hl : inp.useLocal = true
  · rw [if_pos hl]; rfl
  · rw [if_neg hl]; rfl

theorem success_not_mem_cleanup (s : String) (inp : RunInput) :
    Ev.successEv s ∉ cleanupEvents inp := by
  unfold cleanupEvents
  by_cases hl : inp.useLocal = true
  · rw [if_pos hl]; simp
  · rw [if_neg hl]; simp

theorem error_not_mem_cleanup (s : String) (inp : RunInput) :
    Ev.errorEv s ∉ cleanupEvents inp := by
  unfold cleanupEvents
  by_cases hl : inp.useLocal = true
  · rw [if_pos hl]; simp
  · rw [if_neg hl]; simp

/-! ### Claims about the payload patcher (C1, C2, C8) -/

/-- C1, counterexample to the claim as stated.  The claim says `patch(P, U)`
rewrites every value that contains a URL.  The code only scans columns whose
declared type mentions `TEXT`, `VARCHAR` or `BLOB` (line 154): a URL-bearing
value sitting in an `INTEGER`-declared column is left byte-identical instead
of being rewritten to `http://myhost.local:8080/path`. -/
theorem c1_counterexample :
    patchPayload "http://myhost.local:8080".toList
        [Table.mk "t".toList [Column.mk "x".toList "INTEGER".toList]
          [(1, [Value.vStr "http://evil.com/path".toList])]] =
      [Table.mk "t".toList [Column.mk "x".toList "INTEGER".toList]
        [(1, [Value.vStr "http://evil.com/path".toList])]] ∧
    occursIn httpS "http://evil.com/path".toList = true ∧
    "http://evil.com/path".toList ≠ "http://myhost.local:8080/path".toList := by
  refine ⟨by decide, by decide, by decide⟩

/-- C1 (amended).  `patch(P, U)` acts cell-wise.  A cell in a column whose
declared type does not mention `TEXT`/`VARCHAR`/`BLOB` is byte-identical, as
are `None`/numeric cells, string cells without an `http://` or `https://`
substring, and bytes cells whose decoded text has no such substring.  In a
scanned column, a string consisting of a scheme-free prefix, one URL
(scheme, nonempty authority of `[^/\s]` characters) and a scheme-free
non-authority remainder is rewritten so that the URL's scheme+authority
becomes `U` and the path/query remainder is preserved. -/
theorem c1_theorem (u : List Char) (col : Column) :
    (textyCol col.declType = false → ∀ v, patchCell u col v = v) ∧
    (∀ s, occursIn httpS s = false → occursIn httpsS s = false →
      patchCell u col (Value.vStr s) = Value.vStr s) ∧
    (∀ bts, occursIn httpS (decodeBytes bts) = false →
      occursIn httpsS (decodeBytes bts) = false →
      patchCell u col (Value.vBytes bts) = Value.vBytes bts) ∧
    (patchCell u col Value.vNull = Value.vNull ∧
      ∀ n, patchCell u col (Value.vInt n) = Value.vInt n) ∧
    (∀ sch pre auth rest, (sch = httpS ∨ sch = httpsS) →
      textyCol col.declType = true →
      occursIn httpS pre = false → occursIn httpsS pre = false →
      (∀ c ∈ u, ¬c = '\\') →
      auth ≠ [] → (∀ c ∈ auth, isAuthChar c = true) →
      headNotAuth rest = true →
      occursIn httpS rest = false → occursIn httpsS rest = false →
      patchCell u col (Value.vStr (pre ++ (sch ++ (auth ++ rest)))) =
        Value.vStr (pre ++ (u ++ rest))) := by
  refine ⟨?_, ?_, ?_, ⟨?_, ?_⟩, ?_⟩
  · intro ht v
    unfold patchCell
    rw [if_neg (by simp [ht])]
  · intro s h7 h8
    unfold patchCell patchValue
    by_cases ht : textyCol col.declType = true
    · rw [if_pos ht]
      simp [h7, h8]
    · rw [if_neg ht]
  · intro bts h7 h8
    unfold patchCell patchValue
    by_cases ht : textyCol col.declType = true
    · rw [if_pos ht]
      simp [h7, h8]
    · rw [if_neg ht]
  · unfold patchCell patchValue
    split <;> rfl
  · intro n
    unfold patchCell patchValue
    split <;> rfl
  · intro sch pre auth rest hsch ht hpre7 hpre8 _ hane haall hrest hr7 hr8
    have hm : matchUrlAt (sch ++ (auth ++ rest)) = some rest :=
      matchUrlAt_scheme (Or.symm hsch) hane haall hrest
    have hXhead : (sch ++ (auth ++ rest)).head? = some 'h' := by
      rcases hsch with rfl | rfl <;> rfl
    have hocc : (occursIn httpS (pre ++ (sch ++ (auth ++ rest))) ||
        occursIn httpsS (pre ++ (sch ++ (auth ++ rest)))) = true := by
      rcases hsch with rfl | rfl
      · have : occursIn httpS (pre ++ (httpS ++ (auth ++ rest))) = true :=
          occursIn_iff.2 ⟨pre, auth ++ rest, by simp⟩
        simp [this]
      · have : occursIn httpsS (pre ++ (httpsS ++ (auth ++ rest))) = true :=
          occursIn_iff.2 ⟨pre, auth ++ rest, by simp⟩
        simp [this]
    have hne : ¬(pre ++ (sch ++ (auth ++ rest))).isEmpty = true := by
      rcases hsch with rfl | rfl <;>
        simp [List.isEmpty_iff, httpS, httpsS]
    have hsub : urlSub u (pre ++ (sch ++ (auth ++ rest))) = pre ++ (u ++ rest) := by
      rw [urlSub_scheme_free_append u pre _ hpre7 hpre8 hXhead]
      congr 1
      have hstep : urlSub u (sch ++ (auth ++ rest)) = u ++ urlSub u rest := by
        rcases hsch with rfl | rfl
        · exact urlSub_cons_some u hm
        · exact urlSub_cons_some u hm
      rw [hstep, urlSub_no_scheme rest hr7 hr8]
    unfold patchCell patchValue
    rw [if_pos ht]
    dsimp only
    rw [if_neg hne, if_pos hocc, hsub]

/-- C1, witness for the amended theorem at a concrete payload cell whose
scheme-free prefix contains the letter `h`. -/
theorem c1_witness :
    patchCell "http://myhost.local:8080".toList
        (Column.mk "url".toList "TEXT".toList)
        (Value.vStr "the http://a.com/p".toList) =
      Value.vStr "the http://myhost.local:8080/p".toList := by
  have h := c1_theorem ("http://myhost.local:8080".toList)
      (Column.mk "url".toList "TEXT".toList)
  exact h.2.2.2.2
    httpS "the ".toList "a.com".toList "/p".toList
    (Or.inl rfl) (by decide) (by decide) (by decide) (by decide) (by decide)
    (by decide) (by decide) (by decide) (by decide)

/-- C2, counterexample to the claim as stated: idempotence fails for a target
URL that itself carries a path.  With `U = http://h/x`, the first patch turns
`http://a.com/p` into `http://h/x/p`; the second patch matches `http://h`
inside the already-patched value and yields `http://h/x/x/p`. -/
theorem c2_counterexample :
    patchPayload "http://h/x".toList
        (patchPayload "http://h/x".toList
          [Table.mk "t".toList [Column.mk "u".toList "TEXT".toList]
            [(1, [Value.vStr "http://a.com/p".toList])]]) ≠
      patchPayload "http://h/x".toList
        [Table.mk "t".toList [Column.mk "u".toList "TEXT".toList]
          [(1, [Value.vStr "http://a.com/p".toList])]] := by
  decide

/-- C2 (amended).  `patch` is idempotent for every payload whenever the target
URL has the shape the program actually produces (`http(s)://` plus a nonempty
authority without `/` or whitespace, no backslash): patching an
already-patched payload again with the same target is byte-identical. -/
theorem c2_theorem {u : List Char} (hu : wfTargetB u = true) (p : List Table) :
    patchPayload u (patchPayload u p) = patchPayload u p :=
  patchPayload_idem hu p

/-- C2, witness at a concrete payload and the URL shape
`get_local_server_url` produces. -/
theorem c2_witness :
    wfTargetB "http://myhost.local:8080".toList = true ∧
    patchPayload "http://myhost.local:8080".toList
        (patchPayload "http://myhost.local:8080".toList
          [Table.mk "t".toList [Column.mk "u".toList "TEXT".toList]
            [(1, [Value.vStr "http://a.com/p?q=2".toList]),
             (2, [Value.vBytes (encodeStr "https://b.org/z".toList)]),
             (3, [Value.vInt 7])]]) =
      patchPayload "http://myhost.local:8080".toList
        [Table.mk "t".toList [Column.mk "u".toList "TEXT".toList]
          [(1, [Value.vStr "http://a.com/p?q=2".toList]),
           (2, [Value.vBytes (encodeStr "https://b.org/z".toList)]),
           (3, [Value.vInt 7])]] :=
  ⟨by decide, c2_theorem (by decide) _⟩

/-- C8, counterexample to the claim as stated.  `shutil.copy2` (line 131)
runs before the `try` block, so when the initial copy into the temporary
location fails, the error propagates while the file created by
`tempfile.mkstemp` still exists. -/
theorem c8_counterexample :
    (patchRun false true [] []).outcome = Except.error PatchErr.copyErr ∧
    (patchRun false true [] []).tempExists = true :=
  ⟨rfl, rfl⟩

/-- C8 (amended).  Whenever the initial copy succeeds and
`patch_payload_for_local_server` then terminates with an error raised inside
its `try` block, the temporary copy has been removed before the error is
surfaced; a failure of the initial copy itself leaks the temporary file. -/
theorem c8_theorem (p : List Table) (u : List Char) (dbOk : Bool) (e : PatchErr)
    (h : (patchRun true dbOk p u).outcome = Except.error e) :
    (patchRun true dbOk p u).tempExists = false := by
  cases dbOk with
  | true => exact absurd h (by simp [patchRun])
  | false => rfl

/-- C8, witness: a run whose database phase fails has its temporary file
removed when the error surfaces. -/
theorem c8_witness :
    (patchRun true false [] []).outcome = Except.error PatchErr.dbErr ∧
    (patchRun true false [] []).tempExists = false :=
  ⟨rfl, c8_theorem [] [] false PatchErr.dbErr rfl⟩

theorem push_not_mem_cleanup (inp : RunInput) : Ev.push ∉ cleanupEvents inp := by
  unfold cleanupEvents
  by_cases hl : inp.useLocal = true
  · rw [if_pos hl]; simp
  · rw [if_neg hl]; simp

theorem occursIn_runModel_loop {inp : RunInput} {n : List Ev}
    (hact : inp.activationState ≠ PyVal.pyStr "Activated")
    (h : occursIn n (loopFrom inp.useLocal inp.should 0 5) = true) :
    occursIn n (runModel inp) = true := by
  unfold runModel
  rw [if_neg hact]
  exact occursIn_append_right _ (occursIn_append_left _ (occursIn_cons_of _ h))

theorem mem_runModel_loop {inp : RunInput} {x : Ev}
    (hact : inp.activationState ≠ PyVal.pyStr "Activated")
    (h : x ∈ loopFrom inp.useLocal inp.should 0 5) : x ∈ runModel inp := by
  unfold runModel
  rw [if_neg hact]
  exact List.mem_append_left _ (List.mem_append_right _ (List.mem_cons_of_mem _ h))

theorem countEv_push_runModel (inp : RunInput)
    (hact : inp.activationState ≠ PyVal.pyStr "Activated") :
    countEv Ev.push (runModel inp) =
      countEv Ev.push (loopFrom inp.useLocal inp.should 0 5) := by
  unfold runModel
  rw [if_neg hact]
  simp [countEv_append, countEv_push_prep, countEv_push_cleanup, countEv]

theorem success_not_mem_runModel {inp : RunInput} {s : String}
    (hact : inp.activationState ≠ PyVal.pyStr "Activated")
    (h : Ev.successEv s ∉ loopFrom inp.useLocal inp.should 0 5) :
    Ev.successEv s ∉ runModel inp := by
  unfold runModel
  rw [if_neg hact]
  intro hs
  rcases List.mem_append.1 hs with h1 | h1
  · rcases List.mem_append.1 h1 with h2 | h2
    · exact success_not_mem_prep s inp h2
    · rcases List.mem_cons.1 h2 with h3 | h3
      · exact Ev.noConfusion h3
      · exact h h3
  · exact success_not_mem_cleanup s inp h1

theorem error_not_mem_runModel {inp : RunInput} {s : String}
    (hact : inp.activationState ≠ PyVal.pyStr "Activated")
    (h : Ev.errorEv s ∉ loopFrom inp.useLocal inp.should 0 5) :
    Ev.errorEv s ∉ runModel inp := by
  unfold runModel
  rw [if_neg hact]
  intro hs
  rcases List.mem_append.1 hs with h1 | h1
  · rcases List.mem_append.1 h1 with h2 | h2
    · exact error_not_mem_prep s inp h2
    · rcases List.mem_cons.1 h2 with h3 | h3
      · exact Ev.noConfusion h3
      · exact h h3
  · exact error_not_mem_cleanup s inp h1

/-- After `i` rejected attempts and a rejection at attempt `i` that is not the
last one, the trace shows the rejection status, the 5 s backoff sleep and the
next push, consecutively, and at least `i + 2` pushes happen overall. -/
theorem backoff_triple_mem (inp : RunInput) (i : Nat)
    (hact : inp.activationState ≠ PyVal.pyStr "Activated") (hi : i + 1 < 5)
    (hprev : ∀ j, j ≤ i → inp.should j = PyVal.pyBool false) :
    occursIn [Ev.statusEv (attemptMsg i), Ev.sleepEv 5, Ev.push] (runModel inp) = true ∧
    i + 2 ≤ countEv Ev.push (runModel inp) := by
  have hsplit : loopFrom inp.useLocal inp.should 0 5 =
      groupsFrom 0 (i + 1) ++ loopFrom inp.useLocal inp.should (i + 1) (4 - i) := by
    have h5 : (5 : Nat) = (i + 1) + (4 - i) := by omega
    rw [h5, loopFrom_skip inp.useLocal inp.should (i + 1) 0 (4 - i)
      (fun j h1 h2 => hprev j (by omega))]
    rw [Nat.zero_add]
  have hfour : (4 - i) = (3 - i) + 1 := by omega
  have htl : loopFrom inp.useLocal inp.should (i + 1) (4 - i) =
      pushEvents ++
        (if inp.should (i + 1) = PyVal.pyBool false then
          Ev.statusEv (attemptMsg (i + 1)) :: Ev.sleepEv 5 ::
            loopFrom inp.useLocal inp.should (i + 1 + 1) (3 - i)
        else [Ev.restartEv, Ev.successEv "Done!"]) := by
    rw [hfour]
    rfl
  have hloopeq : loopFrom inp.useLocal inp.should 0 5 =
      groupsFrom 0 i ++ (rejectGroup i ++
        (pushEvents ++
          (if inp.should (i + 1) = PyVal.pyBool false then
            Ev.statusEv (attemptMsg (i + 1)) :: Ev.sleepEv 5 ::
              loopFrom inp.useLocal inp.should (i + 1 + 1) (3 - i)
          else [Ev.restartEv, Ev.successEv "Done!"]))) := by
    rw [hsplit, htl, groupsFrom_snoc 0 i, Nat.zero_add, List.append_assoc]
  constructor
  · apply occursIn_runModel_loop hact
    rw [hloopeq]
    apply occursIn_append_left
    have hseg : rejectGroup i ++
        (pushEvents ++
          (if inp.should (i + 1) = PyVal.pyBool false then
            Ev.statusEv (attemptMsg (i + 1)) :: Ev.sleepEv 5 ::
              loopFrom inp.useLocal inp.should (i + 1 + 1) (3 - i)
          else [Ev.restartEv, Ev.successEv "Done!"])) =
        pushEvents ++
          ([Ev.statusEv (attemptMsg i), Ev.sleepEv 5, Ev.push] ++
            ([Ev.restartEv, Ev.sleepEv 10, Ev.reconnect] ++
              (if inp.should (i + 1) = PyVal.pyBool false then
                Ev.statusEv (attemptMsg (i + 1)) :: Ev.sleepEv 5 ::
                  loopFrom inp.useLocal inp.should (i + 1 + 1) (3 - i)
              else [Ev.restartEv, Ev.successEv "Done!"]))) := by
      simp [rejectGroup, pushEvents]
    rw [hseg]
    apply occursIn_append_left
    apply occursIn_of_leadsWith
    exact leadsWith_refl_append _ _
  · rw [countEv_push_runModel inp hact, hloopeq]
    have hc1 : countEv Ev.push (rejectGroup i) = 1 := by
      simp [rejectGroup, pushEvents, countEv_append, countEv]
    have hc2 : countEv Ev.push pushEvents = 1 := by
      simp [pushEvents, countEv]
    simp only [countEv_append, countEv_push_groups, hc1, hc2]
    omega

/-! ### Claims about the orchestrator (C3, C4, C7, C9) -/

/-- C3 (confirmed).  When the readiness flag is the explicit `False` on every
attempt, the run performs exactly 5 pushes (never more), reports
`Attempt 5/5` to the status observer, terminates by emitting the failure
message, and never emits success. -/
theorem c3_theorem (inp : RunInput)
    (hact : inp.activationState ≠ PyVal.pyStr "Activated")
    (hfalse : ∀ i, i < 5 → inp.should i = PyVal.pyBool false) :
    countEv Ev.push (runModel inp) = 5 ∧
    Ev.statusEv (attemptMsg 4) ∈ runModel inp ∧
    Ev.errorEv (failMsg inp.useLocal) ∈ runModel inp ∧
    ∀ s, Ev.successEv s ∉ runModel inp := by
  have hloop : loopFrom inp.useLocal inp.should 0 5 =
      groupsFrom 0 5 ++ [Ev.errorEv (failMsg inp.useLocal)] := by
    have h := loopFrom_skip inp.useLocal inp.should 5 0 0
      (fun j h1 h2 => hfalse j (by omega))
    simpa using h
  refine ⟨?_, ?_, ?_, ?_⟩
  · rw [countEv_push_runModel inp hact, hloop]
    simp [countEv_append, countEv_push_groups, countEv]
  · exact mem_runModel_loop hact (hloop ▸ List.mem_append_left _
      (statusEv_mem_groups 5 0 4 (by omega) (by omega)))
  · exact mem_runModel_loop hact (hloop ▸ List.mem_append_right _ (by simp))
  · intro s
    apply success_not_mem_runModel hact
    rw [hloop]
    intro hs
    rcases List.mem_append.1 hs with h | h
    · exact success_not_mem_groups s 0 5 h
    · simp at h

/-- C3, witness: all-false readiness on a remote-backend run. -/
theorem c3_witness :
    countEv Ev.push (runModel (RunInput.mk false "m" []
        (PyVal.pyStr "Unactivated") (fun _ => PyVal.pyBool false))) = 5 ∧
    Ev.statusEv (attemptMsg 4) ∈ runModel (RunInput.mk false "m" []
        (PyVal.pyStr "Unactivated") (fun _ => PyVal.pyBool false)) ∧
    Ev.errorEv (failMsg (RunInput.mk false "m" []
        (PyVal.pyStr "Unactivated") (fun _ => PyVal.pyBool false)).useLocal) ∈
      runModel (RunInput.mk false "m" []
        (PyVal.pyStr "Unactivated") (fun _ => PyVal.pyBool false)) ∧
    ∀ s, Ev.successEv s ∉ runModel (RunInput.mk false "m" []
        (PyVal.pyStr "Unactivated") (fun _ => PyVal.pyBool false)) :=
  c3_theorem _ (by decide) (fun i _ => rfl)

/-- C4 (confirmed).  After each push attempt the readiness flag decides the
branch exactly as the claim states: an explicit `False` (when it is not the
last attempt) leads to the rejection status, the backoff sleep and the next
push; any other value — `True`, a non-boolean, or an absent key (`None`) —
leads to one final restart immediately followed by the success emission, with
no further pushes and no error. -/
theorem c4_theorem (inp : RunInput) (i : Nat)
    (hact : inp.activationState ≠ PyVal.pyStr "Activated") (hi : i < 5)
    (hprev : ∀ j, j < i → inp.should j = PyVal.pyBool false) :
    (¬inp.should i = PyVal.pyBool false →
      countEv Ev.push (runModel inp) = i + 1 ∧
      occursIn [Ev.restartEv, Ev.successEv "Done!"] (runModel inp) = true ∧
      Ev.successEv "Done!" ∈ runModel inp ∧
      ∀ s, Ev.errorEv s ∉ runModel inp) ∧
    (inp.should i = PyVal.pyBool false → i + 1 < 5 →
      occursIn [Ev.statusEv (attemptMsg i), Ev.sleepEv 5, Ev.push] (runModel inp) = true ∧
      i + 2 ≤ countEv Ev.push (runModel inp)) := by
  constructor
  · intro hne
    have hsplit : loopFrom inp.useLocal inp.should 0 5 =
        groupsFrom 0 i ++ (pushEvents ++ [Ev.restartEv, Ev.successEv "Done!"]) := by
      have h5 : (5 : Nat) = i + ((4 - i) + 1) := by omega
      rw [h5, loopFrom_skip inp.useLocal inp.should i 0 ((4 - i) + 1)
        (fun j h1 h2 => hprev j (by omega)), Nat.zero_add,
        loopFrom_success inp.useLocal (4 - i) hne]
    refine ⟨?_, ?_, ?_, ?_⟩
    · rw [countEv_push_runModel inp hact, hsplit]
      simp [countEv_append, countEv_push_groups, pushEvents, countEv]
    · apply occursIn_runModel_loop hact
      rw [hsplit]
      apply occursIn_append_left
      have hseg : pushEvents ++ [Ev.restartEv, Ev.successEv "Done!"] =
          [Ev.push, Ev.restartEv, Ev.sleepEv 10, Ev.reconnect] ++
            ([Ev.restartEv, Ev.successEv "Done!"] ++ []) := by
        simp [pushEvents]
      rw [hseg]
      apply occursIn_append_left
      apply occursIn_of_leadsWith
      exact leadsWith_refl_append _ _
    · apply mem_runModel_loop hact
      rw [hsplit]
      exact List.mem_append_right _ (List.mem_append_right _ (by simp))
    · intro s
      apply error_not_mem_runModel hact
      rw [hsplit]
      intro hs
      rcases List.mem_append.1 hs with h | h
      · exact error_not_mem_groups s 0 i h
      · rcases List.mem_append.1 h with h | h
        · simp [pushEvents] at h
        · simp at h
  · intro heq hlt
    exact backoff_triple_mem inp i hact hlt (fun j hj => by
      rcases Nat.lt_or_ge j i with hji | hji
      · exact hprev j hji
      · have hje : j = i := by omega
        rw [hje]
        exact heq)

/-- C4, witness: an absent readiness key (`None`) on the first attempt yields
one push, one final restart, success, and no error. -/
theorem c4_witness :
    countEv Ev.push (runModel (RunInput.mk false "m" []
        (PyVal.pyStr "Unactivated") (fun _ => PyVal.pyNone))) = 0 + 1 ∧
    occursIn [Ev.restartEv, Ev.successEv "Done!"]
        (runModel (RunInput.mk false "m" []
          (PyVal.pyStr "Unactivated") (fun _ => PyVal.pyNone))) = true ∧
    Ev.successEv "Done!" ∈ runModel (RunInput.mk false "m" []
        (PyVal.pyStr "Unactivated") (fun _ => PyVal.pyNone)) ∧
    ∀ s, Ev.errorEv s ∉ runModel (RunInput.mk false "m" []
        (PyVal.pyStr "Unactivated") (fun _ => PyVal.pyNone)) :=
  (c4_theorem (RunInput.mk false "m" [] (PyVal.pyStr "Unactivated")
      (fun _ => PyVal.pyNone)) 0 (by decide) (by omega)
    (fun j hj => absurd hj (by omega))).1 (by decide)

/-- C7, counterexample to the claim as stated.  In an all-false run the sleep
between the rejection of attempt 0 and the next push is 5 seconds (and again
5 after attempt 1), not `10 + 5·i`, and it does not increase. -/
theorem c7_counterexample :
    occursIn [Ev.statusEv (attemptMsg 0), Ev.sleepEv 5, Ev.push]
        (runModel (RunInput.mk false "m" [] (PyVal.pyStr "Unactivated")
          (fun _ => PyVal.pyBool false))) = true ∧
    occursIn [Ev.statusEv (attemptMsg 1), Ev.sleepEv 5, Ev.push]
        (runModel (RunInput.mk false "m" [] (PyVal.pyStr "Unactivated")
          (fun _ => PyVal.pyBool false))) = true ∧
    occursIn [Ev.statusEv (attemptMsg 0), Ev.sleepEv (10 + 5 * 0)]
        (runModel (RunInput.mk false "m" [] (PyVal.pyStr "Unactivated")
          (fun _ => PyVal.pyBool false))) = false ∧
    occursIn [Ev.statusEv (attemptMsg 1), Ev.sleepEv (10 + 5 * 1)]
        (runModel (RunInput.mk false "m" [] (PyVal.pyStr "Unactivated")
          (fun _ => PyVal.pyBool false))) = false := by
  refine ⟨by decide, by decide, by decide, by decide⟩

/-- C7 (amended).  The backoff slept between a rejected attempt and the next
push attempt is the constant `time.sleep(5)` of line 368 for every attempt
index (each attempt additionally contains the fixed `time.sleep(10)` settle
delay of `push_payload` after its restart); the backoff does not grow with
the attempt index. -/
theorem c7_theorem (inp : RunInput)
    (hact : inp.activationState ≠ PyVal.pyStr "Activated")
    (hfalse : ∀ i, i < 5 → inp.should i = PyVal.pyBool false) :
    ∀ i, i < 4 →
      occursIn [Ev.statusEv (attemptMsg i), Ev.sleepEv 5, Ev.push]
        (runModel inp) = true := by
  intro i hi
  exact (backoff_triple_mem inp i hact (by omega)
    (fun j hj => hfalse j (by omega))).1

/-- C7, witness for the amended theorem at attempt index 2. -/
theorem c7_witness :
    occursIn [Ev.statusEv (attemptMsg 2), Ev.sleepEv 5, Ev.push]
        (runModel (RunInput.mk true "m" [] (PyVal.pyStr "Unactivated")
          (fun _ => PyVal.pyBool false))) = true :=
  c7_theorem (RunInput.mk true "m" [] (PyVal.pyStr "Unactivated")
      (fun _ => PyVal.pyBool false)) (by decide) (fun i _ => rfl) 2 (by omega)

/-- C9, counterexample to the claim as stated.  In a local-backend run on an
already-activated device the first event is the server start, and the payload
is patched, before the success is emitted — not "success immediately, before
(and therefore without) starting the Local Activation Server or patching the
payload". -/
theorem c9_counterexample :
    (RunInput.mk true "m" [] (PyVal.pyStr "Activated")
        (fun _ => PyVal.pyBool false)).activationState = PyVal.pyStr "Activated" ∧
    (runModel (RunInput.mk true "m" [] (PyVal.pyStr "Activated")
        (fun _ => PyVal.pyBool false))).head? = some Ev.serverStart ∧
    Ev.patchEv ∈ runModel (RunInput.mk true "m" [] (PyVal.pyStr "Activated")
        (fun _ => PyVal.pyBool false)) ∧
    Ev.successEv "Device is already activated" ∈
      runModel (RunInput.mk true "m" [] (PyVal.pyStr "Activated")
        (fun _ => PyVal.pyBool false)) := by
  refine ⟨rfl, by decide, by decide, by decide⟩

/-- C9 (amended).  The activation-state check does precede the push loop:
on an `Activated` snapshot the run emits the success message and performs no
push attempt, and with the remote backend nothing else happens at all.  But
when local mode is selected, the local backend preparation (server start and
payload patching) runs before the state check, and cleanup stops the server
and removes the patched copy afterwards. -/
theorem c9_theorem (inp : RunInput)
    (hact : inp.activationState = PyVal.pyStr "Activated") :
    runModel inp = prepEvents inp ++
      [Ev.successEv "Device is already activated"] ++ cleanupEvents inp ∧
    Ev.push ∉ runModel inp ∧
    Ev.successEv "Device is already activated" ∈ runModel inp ∧
    (inp.useLocal = false → runModel inp = [Ev.successEv "Device is already activated"]) ∧
    (inp.useLocal = true → (runModel inp).head? = some Ev.serverStart ∧
      Ev.patchEv ∈ runModel inp ∧ Ev.serverStop ∈ runModel inp ∧
      Ev.removeTemp ∈ runModel inp) := by
  have htrace : runModel inp = prepEvents inp ++
      [Ev.successEv "Device is already activated"] ++ cleanupEvents inp := by
    unfold runModel
    rw [if_pos hact]
  refine ⟨htrace, ?_, ?_, ?_, ?_⟩
  · rw [htrace]
    intro h
    rcases List.mem_append.1 h with h | h
    · rcases List.mem_append.1 h with h | h
      · exact push_not_mem_prep inp h
      · simp at h
    · exact push_not_mem_cleanup inp h
  · rw [htrace]
    exact List.mem_append_left _ (List.mem_append_right _ (by simp))
  · intro hl
    rw [htrace]
    unfold prepEvents cleanupEvents
    rw [if_neg (by simp [hl]), if_neg (by simp [hl])]
    rfl
  · intro hl
    refine ⟨?_, ?_, ?_, ?_⟩
    · rw [htrace]
      unfold prepEvents
      rw [if_pos hl]
      rfl
    · rw [htrace]
      apply List.mem_append_left
      apply List.mem_append_left
      unfold prepEvents
      rw [if_pos hl]
      simp
    · rw [htrace]
      apply List.mem_append_right
      unfold cleanupEvents
      rw [if_pos hl]
      simp
    · rw [htrace]
      apply List.mem_append_right
      unfold cleanupEvents
      rw [if_pos hl]
      simp

/-! ### Claims about the local server request handler (C5, C6, C10) -/

/-- C5, counterexample to the claim as stated.  `send_response(200)` in
Python's `BaseHTTPRequestHandler` unconditionally emits `Server` and `Date`
headers before the five `send_header` calls of lines 240-244, so the wire
response of a successful request carries seven headers — not "exactly the
five headers". -/
theorem c5_counterexample :
    (do_GET (some "model/iPad2,1 build/13G36".toList)
        (fun p => if p = plistPath "iPad2,1".toList "13G36".toList then
          FsEntry.file [60, 112, 108, 62] else FsEntry.absent)
        "BaseHTTP/0.6 Python/3.9.2" "Mon, 01 Jan 2024 00:00:00 GMT"
        (fun _ => [])).status = 200 ∧
    (do_GET (some "model/iPad2,1 build/13G36".toList)
        (fun p => if p = plistPath "iPad2,1".toList "13G36".toList then
          FsEntry.file [60, 112, 108, 62] else FsEntry.absent)
        "BaseHTTP/0.6 Python/3.9.2" "Mon, 01 Jan 2024 00:00:00 GMT"
        (fun _ => [])).headers ≠ respHeaders [60, 112, 108, 62] ∧
    (do_GET (some "model/iPad2,1 build/13G36".toList)
        (fun p => if p = plistPath "iPad2,1".toList "13G36".toList then
          FsEntry.file [60, 112, 108, 62] else FsEntry.absent)
        "BaseHTTP/0.6 Python/3.9.2" "Mon, 01 Jan 2024 00:00:00 GMT"
        (fun _ => [])).headers.length = 7 := by
  refine ⟨by decide, by decide, by decide⟩

/-- C5 (amended).  When both tokens are extracted from the User-Agent and the
file at `backend/plists/<model>/<build>/patched.plist` exists and is
readable, the handler responds 200 with exactly that file's bytes as body;
the header block consists of the `Server` and `Date` headers automatically
emitted by `send_response`, followed by exactly the five handler-set headers
`Content-Type: application/xml`, `Content-Length`,
`Content-Disposition: attachment; filename="patched.plist"`,
`Cache-Control: must-revalidate`, `Pragma: public`, in this order. -/
theorem c5_theorem (ua : Option (List Char)) (fs : List Char → FsEntry)
    (serverHdr dateHdr : String) (errPage : Nat → List Nat)
    (m b : List Char) (content : List Nat)
    (hm : tokenSearch modelPat modelCls (ua.getD []) = some m)
    (hb : tokenSearch buildPat buildCls (ua.getD []) = some b)
    (hfs : fs (plistPath m b) = FsEntry.file content) :
    (do_GET ua fs serverHdr dateHdr errPage).status = 200 ∧
    (do_GET ua fs serverHdr dateHdr errPage).body = content ∧
    (do_GET ua fs serverHdr dateHdr errPage).headers =
      ("Server", serverHdr) :: ("Date", dateHdr) :: respHeaders content := by
  have hmspec := tokenSearch_spec modelPat modelCls (ua.getD []) m hm
  have hbspec := tokenSearch_spec buildPat buildCls (ua.getD []) b hb
  have hdm : occursIn ddot m = false :=
    no_ddot_of_no_dot (fun c hc => (modelCls_chars (hmspec.2 c hc)).1)
  have hdb : occursIn ddot b = false :=
    no_ddot_of_no_dot (fun c hc => (buildCls_chars (hbspec.2 c hc)).1)
  unfold do_GET
  rw [hm, hb]
  dsimp only
  rw [if_neg (by simp [hdm, hdb]), hfs]
  exact ⟨rfl, rfl, rfl⟩

/-- C5, witness at the spec's example request. -/
theorem c5_witness :
    (do_GET (some "model/iPad2,1 build/13G36".toList)
        (fun p => if p = plistPath "iPad2,1".toList "13G36".toList then
          FsEntry.file [60, 112, 108, 62] else FsEntry.absent)
        "BaseHTTP/0.6 Python/3.9.2" "Mon, 01 Jan 2024 00:00:00 GMT"
        (fun _ => [])).status = 200 ∧
    (do_GET (some "model/iPad2,1 build/13G36".toList)
        (fun p => if p = plistPath "iPad2,1".toList "13G36".toList then
          FsEntry.file [60, 112, 108, 62] else FsEntry.absent)
        "BaseHTTP/0.6 Python/3.9.2" "Mon, 01 Jan 2024 00:00:00 GMT"
        (fun _ => [])).body = [60, 112, 108, 62] ∧
    (do_GET (some "model/iPad2,1 build/13G36".toList)
        (fun p => if p = plistPath "iPad2,1".toList "13G36".toList then
          FsEntry.file [60, 112, 108, 62] else FsEntry.absent)
        "BaseHTTP/0.6 Python/3.9.2" "Mon, 01 Jan 2024 00:00:00 GMT"
        (fun _ => [])).headers =
      ("Server", "BaseHTTP/0.6 Python/3.9.2") ::
        ("Date", "Mon, 01 Jan 2024 00:00:00 GMT") ::
        respHeaders [60, 112, 108, 62] :=
  c5_theorem _ _ "BaseHTTP/0.6 Python/3.9.2" "Mon, 01 Jan 2024 00:00:00 GMT"
    (fun _ => []) "iPad2,1".toList "13G36".toList [60, 112, 108, 62]
    (by decide) (by decide) (by decide)

/-- C6 (confirmed).  A request whose User-Agent yields no model token or no
build token, or whose extracted tokens contain the traversal sequence `..`,
is answered 403 and the handler touches no filesystem path at all. -/
theorem c6_theorem (ua : Option (List Char)) (fs : List Char → FsEntry)
    (serverHdr dateHdr : String) (errPage : Nat → List Nat)
    (h : tokenSearch modelPat modelCls (ua.getD []) = none ∨
      tokenSearch buildPat buildCls (ua.getD []) = none ∨
      (∃ m, tokenSearch modelPat modelCls (ua.getD []) = some m ∧
        occursIn ddot m = true) ∨
      (∃ b, tokenSearch buildPat buildCls (ua.getD []) = some b ∧
        occursIn ddot b = true)) :
    (do_GET ua fs serverHdr dateHdr errPage).status = 403 ∧
    (do_GET ua fs serverHdr dateHdr errPage).queries = [] := by
  unfold do_GET
  rcases h with h | h | ⟨m, hm, hd⟩ | ⟨b, hb, hd⟩
  · rw [h]
    cases hy : tokenSearch buildPat buildCls (ua.getD []) <;> exact ⟨rfl, rfl⟩
  · rw [h]
    cases hx : tokenSearch modelPat modelCls (ua.getD []) <;> exact ⟨rfl, rfl⟩
  · rw [hm]
    cases hy : tokenSearch buildPat buildCls (ua.getD []) with
    | none => exact ⟨rfl, rfl⟩
    | some b =>
      dsimp only
      rw [if_pos (by simp [hd])]
      exact ⟨rfl, rfl⟩
  · rw [hb]
    cases hx : tokenSearch modelPat modelCls (ua.getD []) with
    | none => exact ⟨rfl, rfl⟩
    | some m =>
      dsimp only
      rw [if_pos (by simp [hd])]
      exact ⟨rfl, rfl⟩

/-- C6, witness: a browser-style User-Agent with no tokens. -/
theorem c6_witness :
    (do_GET (some "Mozilla/5.0 (Macintosh)".toList)
        (fun _ => FsEntry.absent) "BaseHTTP/0.6 Python/3.9.2"
        "Mon, 01 Jan 2024 00:00:00 GMT" (fun _ => [])).status = 403 ∧
    (do_GET (some "Mozilla/5.0 (Macintosh)".toList)
        (fun _ => FsEntry.absent) "BaseHTTP/0.6 Python/3.9.2"
        "Mon, 01 Jan 2024 00:00:00 GMT" (fun _ => [])).queries = [] :=
  c6_theorem _ _ _ _ _ (Or.inl (by decide))

/-- C10 (confirmed, implicit claim).  Every extracted model token matches
`[a-zA-Z0-9,]+` and every build token matches `[a-zA-Z0-9]+`, so neither can
contain `.`, `/` or `\`; hence the `..` traversal branch is unreachable after
extraction, and every path the handler resolves is exactly
`backend/plists/<model>/<build>/patched.plist` with those single-segment
tokens. -/
theorem c10_theorem (ua : Option (List Char)) (fs : List Char → FsEntry)
    (serverHdr dateHdr : String) (errPage : Nat → List Nat)
    (m b : List Char)
    (hm : tokenSearch modelPat modelCls (ua.getD []) = some m)
    (hb : tokenSearch buildPat buildCls (ua.getD []) = some b) :
    (m ≠ [] ∧ ∀ c ∈ m, modelCls c = true) ∧
    (b ≠ [] ∧ ∀ c ∈ b, buildCls c = true) ∧
    (∀ c ∈ m, ¬c = '.' ∧ ¬c = '/' ∧ ¬c = '\\') ∧
    (∀ c ∈ b, ¬c = '.' ∧ ¬c = '/' ∧ ¬c = '\\') ∧
    occursIn ddot m = false ∧ occursIn ddot b = false ∧
    (∀ q ∈ (do_GET ua fs serverHdr dateHdr errPage).queries, q = plistPath m b) := by
  have hmspec := tokenSearch_spec modelPat modelCls (ua.getD []) m hm
  have hbspec := tokenSearch_spec buildPat buildCls (ua.getD []) b hb
  have hdm : occursIn ddot m = false :=
    no_ddot_of_no_dot (fun c hc => (modelCls_chars (hmspec.2 c hc)).1)
  have hdb : occursIn ddot b = false :=
    no_ddot_of_no_dot (fun c hc => (buildCls_chars (hbspec.2 c hc)).1)
  refine ⟨hmspec, hbspec, ?_, ?_, hdm, hdb, ?_⟩
  · intro c hc
    exact modelCls_chars (hmspec.2 c hc)
  · intro c hc
    have h4 := buildCls_chars (hbspec.2 c hc)
    exact ⟨h4.1, h4.2.1, h4.2.2.1⟩
  · intro q hq
    unfold do_GET at hq
    rw [hm, hb] at hq
    dsimp only at hq
    rw [if_neg (by simp [hdm, hdb])] at hq
    cases hfs : fs (plistPath m b) <;> rw [hfs] at hq <;> simp at hq <;> simp [hq]

/-- C10, witness at a concrete User-Agent. -/
theorem c10_witness :
    ("iPad2,1".toList ≠ [] ∧ ∀ c ∈ "iPad2,1".toList, modelCls c = true) ∧
    occursIn ddot "iPad2,1".toList = false ∧
    occursIn ddot "13G36".toList = false ∧
    (∀ q ∈ (do_GET (some "model/iPad2,1 build/13G36".toList)
        (fun _ => FsEntry.absent) "BaseHTTP/0.6 Python/3.9.2"
        "Mon, 01 Jan 2024 00:00:00 GMT" (fun _ => [])).queries,
      q = plistPath "iPad2,1".toList "13G36".toList) := by
  have h := c10_theorem (some "model/iPad2,1 build/13G36".toList)
    (fun _ => FsEntry.absent) "BaseHTTP/0.6 Python/3.9.2"
    "Mon, 01 Jan 2024 00:00:00 GMT" (fun _ => [])
    "iPad2,1".toList "13G36".toList (by decide) (by decide)
  exact ⟨h.1, h.2.2.2.2.1, h.2.2.2.2.2.1, h.2.2.2.2.2.2⟩

/-- C9, witness for the amended theorem on a local-backend run. -/
theorem c9_witness :
    Ev.push ∉ runModel (RunInput.mk true "host.local" [] (PyVal.pyStr "Activated")
        (fun _ => PyVal.pyNone)) ∧
    (runModel (RunInput.mk true "host.local" [] (PyVal.pyStr "Activated")
        (fun _ => PyVal.pyNone))).head? = some Ev.serverStart ∧
    Ev.serverStop ∈ runModel (RunInput.mk true "host.local" [] (PyVal.pyStr "Activated")
        (fun _ => PyVal.pyNone)) := by
  have h := c9_theorem (RunInput.mk true "host.local" [] (PyVal.pyStr "Activated")
      (fun _ => PyVal.pyNone)) rfl
  exact ⟨h.2.1, (h.2.2.2.2 rfl).1, (h.2.2.2.2 rfl).2.2.1⟩

end A5
